import Mathlib

/-!
Verification development for node-ejson (src/ejson.js).

The JavaScript source is shallowly embedded: strings are `List Char`,
byte buffers are `List Nat` (each entry a byte value below 256), thrown
exceptions are `Except JsError`, and JSON documents are an inductive tree.
Each definition mirrors one function of src/ejson.js; the NaCl box
primitive (src/lib/nacl-fast.js, not included in the sources) is modelled
from the spec, as marked on its definitions.
-/

set_option autoImplicit false

namespace Ejson

/-- Errors thrown by the JavaScript code: `jsError` models `new Error(msg)`
(as thrown by `parseEncryptedValue`), `jsTypeError` models a `TypeError`
raised by the runtime (as raised by `Buffer.from(null)` in `decrypt`). -/
inductive JsError where
  | jsError (msg : List Char)
  | jsTypeError (msg : List Char)
deriving Repr, DecidableEq

/-- Shorthand to write string literals as `List Char`. -/
def lc (s : String) : List Char := s.toList

/-- Character class `[A-Za-z0-9+=/]` of the EJSON regular expression. -/
def isB64Class (c : Char) : Bool :=
  ('A' ≤ c && c ≤ 'Z') || ('a' ≤ c && c ≤ 'z') || ('0' ≤ c && c ≤ '9') ||
    c == '+' || c == '=' || c == '/'

/-- In a JavaScript regular expression without the `s` flag, `.` matches any
character except the four line terminators. -/
def notLineTerm (c : Char) : Bool :=
  !(c == '\n' || c == '\r' || c == '\u2028' || c == '\u2029')

/-- Result of `parseEncryptedValue` (the object literal built in
src/ejson.js lines 9-15). -/
structure EncryptedToken where
  schemaVersion : Nat
  encrypterPublic : List Char
  nonce : List Char
  box : List Char
deriving Repr, DecidableEq

/-- The regular expression
`/^EJ\[(\d):([A-Za-z0-9+=/]{44}):([A-Za-z0-9+=/]{32}):(.+)]$/` applied to a
string, returning the four capture groups on a match.  Both fixed-length
classes exclude `:` and the lengths are fixed, so the split positions are
forced; the greedy `(.+)]$` forces the final character to be `]` with a
nonempty run of non-line-terminator characters before it. -/
def ejsonMatch (s : List Char) : Option (Char × List Char × List Char × List Char) :=
  match s with
  | 'E' :: 'J' :: '[' :: d :: ':' :: rest =>
    let p := rest.take 44
    let r2 := rest.drop 44
    let n := (r2.drop 1).take 32
    let r4 := (r2.drop 1).drop 32
    let r5 := r4.drop 1
    let c := r5.dropLast
    if d.isDigit && (p.length = 44 && p.all isB64Class) && r2.take 1 = [':'] &&
        (n.length = 32 && n.all isB64Class) && r4.take 1 = [':'] &&
        (r5.getLast? = some ']' && !c.isEmpty && c.all notLineTerm)
    then some (d, p, n, c) else none
  | _ => none

/-- Numeric value of a decimal digit character, as `parseInt` computes it on
a single-digit string. -/
def digitVal (c : Char) : Nat := c.toNat - 48

/-- src/ejson.js `parseEncryptedValue`: match the EJSON regular expression
and either return the structured fields or throw
`new Error('Invalid EJSON: ' + value)`.  On a successful match the
`parts.length !== 5` guard of the source is always false (the match array
is the whole match plus the four groups), so it adds nothing. -/
def parseEncryptedValue (value : List Char) : Except JsError EncryptedToken :=
  match ejsonMatch value with
  | some (d, p, n, c) =>
    .ok { schemaVersion := digitVal d, encrypterPublic := p, nonce := n, box := c }
  | none => .error (.jsError (lc "Invalid EJSON: " ++ value))

/-! ## Textual encodings

Node's `Buffer.from(text, enc)` and `Buffer.prototype.toString(enc)` for
the encodings the source uses: base64, hex and utf8.  Bytes are `Nat`
values below 256. -/

/-- The 64 characters of the standard base64 alphabet, in value order. -/
def b64Alphabet : List Char := lc "ABCDEFGHIJKLMNOPQRSTUVWXYZabcdefghijklmnopqrstuvwxyz0123456789+/"

/-- Character of a six-bit value. -/
def b64CharOf (v : Nat) : Char := b64Alphabet.getD v '?'

/-- Six-bit value of an alphabet character (only used on alphabet members). -/
def b64ValOf (c : Char) : Nat := b64Alphabet.indexOf c

/-- Membership in the base64 alphabet (padding `=` is not a member). -/
def isB64Alpha (c : Char) : Bool := b64Alphabet.contains c

/-- Standard padded base64 of a byte list, as `Buffer.toString('base64')`
produces it. -/
def b64enc : List Nat → List Char
  | [] => []
  | [b1] => [b64CharOf (b1 / 4), b64CharOf (b1 % 4 * 16), '=', '=']
  | [b1, b2] => [b64CharOf (b1 / 4), b64CharOf (b1 % 4 * 16 + b2 / 16), b64CharOf (b2 % 16 * 4), '=']
  | b1 :: b2 :: b3 :: rest =>
    b64CharOf (b1 / 4) :: b64CharOf (b1 % 4 * 16 + b2 / 16) ::
      b64CharOf (b2 % 16 * 4 + b3 / 64) :: b64CharOf (b3 % 64) :: b64enc rest

/-- Grouped base64 decoding of a list of alphabet characters. -/
def b64decCore : List Char → List Nat
  | c1 :: c2 :: c3 :: c4 :: rest =>
    (b64ValOf c1 * 4 + b64ValOf c2 / 16) ::
      (b64ValOf c2 % 16 * 16 + b64ValOf c3 / 4) ::
      (b64ValOf c3 % 4 * 64 + b64ValOf c4) :: b64decCore rest
  | [c1, c2] => [b64ValOf c1 * 4 + b64ValOf c2 / 16]
  | [c1, c2, c3] => [b64ValOf c1 * 4 + b64ValOf c2 / 16, b64ValOf c2 % 16 * 16 + b64ValOf c3 / 4]
  | _ => []

/-- `Buffer.from(text, 'base64')`: Node's decoder never throws; padding and
characters outside the alphabet are skipped, the rest is decoded in groups
of four six-bit values, and a dangling single character yields no byte. -/
def b64dec (s : List Char) : List Nat := b64decCore (s.filter isB64Alpha)

/-- Value of one hexadecimal digit. -/
def hexVal (c : Char) : Option Nat :=
  if '0' ≤ c && c ≤ '9' then some (c.toNat - 48)
  else if 'a' ≤ c && c ≤ 'f' then some (c.toNat - 87)
  else if 'A' ≤ c && c ≤ 'F' then some (c.toNat - 55)
  else none

/-- `Buffer.from(text, 'hex')`: decode pairs of hex digits, stopping (never
throwing) at the first invalid pair or dangling digit. -/
def hexdec : List Char → List Nat
  | c1 :: c2 :: rest =>
    match hexVal c1, hexVal c2 with
    | some h, some l => (h * 16 + l) :: hexdec rest
    | _, _ => []
  | _ => []

/-- UTF-8 encoding of one Unicode scalar value. -/
def utf8encChar (c : Char) : List Nat :=
  if c.toNat < 128 then [c.toNat]
  else if c.toNat < 2048 then [192 + c.toNat / 64, 128 + c.toNat % 64]
  else if c.toNat < 65536 then [224 + c.toNat / 4096, 128 + c.toNat / 64 % 64, 128 + c.toNat % 64]
  else [240 + c.toNat / 262144, 128 + c.toNat / 4096 % 64, 128 + c.toNat / 64 % 64, 128 + c.toNat % 64]

/-- `Buffer.from(text, 'utf8')`: UTF-8 encoding of a string. -/
def utf8enc : List Char → List Nat
  | [] => []
  | c :: cs => utf8encChar c ++ utf8enc cs

/-- UTF-8 decoding with explicit fuel (one unit per decoded character; the
wrapper below supplies the list's length, which always suffices). -/
def utf8decFuel : Nat → List Nat → List Char
  | 0, _ => []
  | _ + 1, [] => []
  | fuel + 1, b :: rest =>
    if b < 128 then Char.ofNat b :: utf8decFuel fuel rest
    else if b < 224 then
      Char.ofNat ((b - 192) * 64 + (rest.headD 0 - 128)) :: utf8decFuel fuel (rest.drop 1)
    else if b < 240 then
      Char.ofNat ((b - 224) * 4096 + (rest.headD 0 - 128) * 64 + ((rest.drop 1).headD 0 - 128)) ::
        utf8decFuel fuel (rest.drop 2)
    else
      Char.ofNat ((b - 240) * 262144 + (rest.headD 0 - 128) * 4096 +
          ((rest.drop 1).headD 0 - 128) * 64 + ((rest.drop 2).headD 0 - 128)) ::
        utf8decFuel fuel (rest.drop 3)

/-- `Buffer.toString('utf8')`: UTF-8 decoding; on the well-formed output of
`utf8enc` it inverts the encoding (malformed input, which never arises in
the verified paths, decodes loosely rather than faithfully reproducing
Node's replacement-character policy). -/
def utf8dec (l : List Nat) : List Char := utf8decFuel l.length l

/-! ## The box primitive

src/ejson.js imports `nacl` from `./lib/nacl-fast.js`, a repository file
that is not among the provided sources, so the primitive is modelled from
the spec (section 4.2): public-key authenticated encryption in the style
of Curve25519 key agreement plus a keyed stream cipher and authenticator,
keyed by a 24-byte nonce and 32-byte keys, whose `open` returns an
explicit failure indicator (`null`, here `none`) when authentication
fails.  The model keeps exactly the properties the spec states — the
key-agreement symmetry `shared(pub a, b) = shared(pub b, a)`, size
requirements, tag checking — using a small Diffie-Hellman group. -/

/-- Modelled from the spec: scalar derived from a 32-byte secret key
(folded into a bounded exponent so the model stays computable). -/
def skScalar (sk : List Nat) : Nat := sk.foldl (fun a b => (a * 256 + b) % 250) 0

/-- Modelled from the spec: a 32-byte public key read as a group element of
the Diffie-Hellman group (integers modulo the prime 251, generator 7). -/
def pkElem (pk : List Nat) : Nat := pk.foldl (fun a b => (a * 256 + b) % 251) 0

/-- Modelled from the spec: `nacl.box.keyPair`-style public key of a secret
key — 31 zero bytes followed by the group element `7 ^ scalar mod 251`. -/
def naclPub (sk : List Nat) : List Nat := List.replicate 31 0 ++ [7 ^ skScalar sk % 251]

/-- Modelled from the spec: the shared key agreed between one side's public
key and the other side's secret key. -/
def sharedKey (pk sk : List Nat) : Nat := pkElem pk ^ skScalar sk % 251

/-- Modelled from the spec: the single stream byte derived from a shared
key and a nonce (the model's stand-in for the XSalsa20 keystream). -/
def ksByte (k : Nat) (n : List Nat) : Nat := (k + 3 * n.foldl (· + ·) 0) % 256

/-- Modelled from the spec: authenticator byte over shared key, nonce and
ciphertext body (the model's stand-in for the Poly1305 tag). -/
def tagByte (k : Nat) (n body : List Nat) : Nat :=
  (7 * k + 5 * n.foldl (· + ·) 0 + 11 * body.foldl (· + ·) 0 + body.length) % 256

/-- Modelled from the spec: `nacl.box(m, nonce, theirPub, mySecret)` —
requires a 24-byte nonce and 32-byte keys, encrypts the message bytes with
the shared-key stream and attaches the authenticator tag.  `none` stands
for the primitive rejecting ill-sized arguments (a throw in nacl). -/
def naclBox (m n pk sk : List Nat) : Option (List Nat) :=
  if n.length = 24 && pk.length = 32 && sk.length = 32 then
    let k := sharedKey pk sk
    let body := m.map (fun b => (b + ksByte k n) % 256)
    some (tagByte k n body :: body)
  else none

/-- Modelled from the spec: `nacl.box.open(c, nonce, theirPub, mySecret)` —
recomputes the authenticator and returns `none` (nacl's `null`) whenever
it does not match (wrong key, tampered ciphertext, wrong nonce) or the
arguments are ill-sized, otherwise the decrypted message bytes. -/
def naclBoxOpen (c n pk sk : List Nat) : Option (List Nat) :=
  if n.length = 24 && pk.length = 32 && sk.length = 32 then
    match c with
    | [] => none
    | t :: body =>
      let k := sharedKey pk sk
      if t = tagByte k n body then some (body.map (fun b => (b + (256 - ksByte k n)) % 256))
      else none
  else none

/-- src/ejson.js `encrypt`: utf8-decode the message, base64-decode nonce and
public key, hex-decode the secret key, seal with `nacl.box` and re-encode
the sealed bytes as base64.  A throw out of the primitive (ill-sized key
material) propagates, hence the `Except`. -/
def encrypt (message nonce theirPublicKey mySecretKey : List Char) : Except JsError (List Char) :=
  match naclBox (utf8enc message) (b64dec nonce) (b64dec theirPublicKey) (hexdec mySecretKey) with
  | some data => .ok (b64enc data)
  | none => .error (.jsError (lc "bad key size"))

/-- src/ejson.js `decrypt`: base64-decode message, nonce and public key,
hex-decode the secret key and open the box.  When `nacl.box.open` returns
`null` the source calls `Buffer.from(null)`, which throws a `TypeError`;
otherwise the plaintext bytes are utf8-encoded back to text. -/
def decrypt (message nonce theirPublicKey mySecretKey : List Char) : Except JsError (List Char) :=
  match naclBoxOpen (b64dec message) (b64dec nonce) (b64dec theirPublicKey) (hexdec mySecretKey) with
  | some data => .ok (utf8dec data)
  | none =>
    .error (.jsTypeError (lc "The first argument must be of type string or an instance of Buffer, ArrayBuffer, or Array or an Array-like Object. Received null"))

/-! ## JSON documents

A parsed JSON value.  Object fields are an association list in the
object's property order (for documents produced by `JSON.parse` this is
the textual order of the keys; the model assumes keys are not array
indices, for which JavaScript would reorder the traversal). -/

inductive JVal where
  | str (s : List Char)
  | num (n : Int)
  | bool (b : Bool)
  | null
  | arr (elems : List JVal)
  | obj (fields : List (List Char × JVal))
deriving Repr

/-- Property read `o[k]`: first binding of the key, `none` is `undefined`. -/
def jLookup : List (List Char × JVal) → List Char → Option JVal
  | [], _ => none
  | (k', v) :: rest, k => if k' = k then some v else jLookup rest k

/-- Property write `o[k] = v`: overwrite the first binding of the key, or
append a new binding (JavaScript adds new keys at the end of the
property order). -/
def setField : List (List Char × JVal) → List Char → JVal → List (List Char × JVal)
  | [], k, v => [(k, v)]
  | (k', v') :: rest, k, v => if k' = k then (k, v) :: rest else (k', v') :: setField rest k v

/-- JavaScript falsiness of a JSON value: empty string, zero, `false` and
`null` are falsy, every object and array is truthy. -/
def jsFalsy : JVal → Bool
  | .str s => s.isEmpty
  | .num n => n == 0
  | .bool b => !b
  | .null => true
  | _ => false

/-- Falsiness of a property read: an absent property (`undefined`) is falsy. -/
def falsyOpt : Option JVal → Bool
  | none => true
  | some v => jsFalsy v

/-- The walker's cheap gate `value.startsWith('EJ[')`. -/
def isEjTagged : List Char → Bool
  | 'E' :: 'J' :: '[' :: _ => true
  | _ => false

/-- Key test `key.startsWith('_')`. -/
def isUnderscoreKey : List Char → Bool
  | c :: _ => c == '_'
  | [] => false

/-- Does the value have JavaScript `typeof === 'object'`?  True for
objects, arrays and `null`. -/
def isObjTyped : JVal → Bool
  | .obj _ => true
  | .arr _ => true
  | .null => true
  | _ => false

/-- One iteration of the `for (const key in configJson)` loop of
src/ejson.js `processObjectFields`, on the current object and one key of
the snapshot.  `sub` is the recursive call used for values of
`typeof 'object'`.  The three branches mirror the source:
default-aliasing for underscore keys, parse-and-decrypt for `EJ[`-tagged
string values, recursion otherwise when `typeof` is `'object'`. -/
def stepField (sub : JVal → Except JsError JVal) (privateKey : List Char)
    (obj : List (List Char × JVal)) (key : List Char) :
    Except JsError (List (List Char × JVal)) :=
  if isUnderscoreKey key then
    let keyName := key.drop 1
    if falsyOpt (jLookup obj keyName) then
      match jLookup obj key with
      | some v => .ok (setField obj keyName v)
      | none => .ok obj
    else .ok obj
  else
    match jLookup obj key with
    | some (.str s) =>
      if isEjTagged s then do
        let parsed ← parseEncryptedValue s
        let pt ← decrypt parsed.box parsed.nonce parsed.encrypterPublic privateKey
        return setField obj key (.str pt)
      else .ok obj
    | some (.num _) => .ok obj
    | some (.bool _) => .ok obj
    | some v => do
      let r ← sub v
      return setField obj key r
    | none => .ok obj

/-- The loop itself: fold `stepField` over the snapshot of keys, threading
the current object (keys added by the alias branch are not in the
snapshot and are not visited; every read sees the current object). -/
def processKeys (sub : JVal → Except JsError JVal) (privateKey : List Char) :
    List (List Char × JVal) → List (List Char) → Except JsError (List (List Char × JVal))
  | obj, [] => .ok obj
  | obj, key :: rest => do
    let obj' ← stepField sub privateKey obj key
    processKeys sub privateKey obj' rest

/-- The same loop on one array element (the index keys of an array never
start with an underscore, so only the string and object branches apply). -/
def stepElem (sub : JVal → Except JsError JVal) (privateKey : List Char) (v : JVal) :
    Except JsError JVal :=
  match v with
  | .str s =>
    if isEjTagged s then do
      let parsed ← parseEncryptedValue s
      let pt ← decrypt parsed.box parsed.nonce parsed.encrypterPublic privateKey
      return .str pt
    else .ok (.str s)
  | .num n => .ok (.num n)
  | .bool b => .ok (.bool b)
  | w => sub w

/-- The loop over an array's elements, in index order. -/
def processElemsW (sub : JVal → Except JsError JVal) (privateKey : List Char) :
    List JVal → Except JsError (List JVal)
  | [] => .ok []
  | v :: rest => do
    let r ← stepElem sub privateKey v
    let rs ← processElemsW sub privateKey rest
    return r :: rs

/-- src/ejson.js `processObjectFields` on one value, one level deep, with
`sub` processing child values.  On value semantics `structuredClone` is
the identity, so the function maps the input tree to the processed tree;
the store-level model further below accounts for the cloning itself.
Arrays also have `typeof 'object'` and are traversed element by element.
All other values — including a string at the root, over whose
single-character index properties the loop assigns nothing — come back
unchanged. -/
def processOneLevel (sub : JVal → Except JsError JVal) (privateKey : List Char) (v : JVal) :
    Except JsError JVal :=
  match v with
  | .obj fields => JVal.obj <$> processKeys sub privateKey fields (fields.map Prod.fst)
  | .arr elems => JVal.arr <$> processElemsW sub privateKey elems
  | w => .ok w

/-- The recursive walker, with explicit recursion fuel: the JavaScript
recursion depth is bounded by the document depth, and
`processObjectFields` below supplies fuel that dominates it (when the
fuel runs out a child of `typeof 'object'` is written back unprocessed;
with adequate fuel that branch is never taken). -/
def processVal : Nat → JVal → List Char → Except JsError JVal
  | 0, v, privateKey => processOneLevel (fun w => .ok w) privateKey v
  | fuel + 1, v, privateKey => processOneLevel (fun w => processVal fuel w privateKey) privateKey v

mutual

/-- Depth of a JSON tree; an upper bound for the walker's recursion depth. -/
def jdepth : JVal → Nat
  | .obj fields => 1 + jdepthFields fields
  | .arr elems => 1 + jdepthElems elems
  | _ => 0

def jdepthFields : List (List Char × JVal) → Nat
  | [] => 0
  | (_, v) :: rest => max (jdepth v) (jdepthFields rest)

def jdepthElems : List JVal → Nat
  | [] => 0
  | v :: rest => max (jdepth v) (jdepthElems rest)

end

/-- src/ejson.js `processObjectFields` on value semantics: run the walker
with fuel that dominates the recursion depth. -/
def processObjectFields (rawConf : JVal) (privateKey : List Char) : Except JsError JVal :=
  processVal (jdepth rawConf) rawConf privateKey

/-- Root property read `rawConf['_public_key']`. -/
def rootLookup (v : JVal) (k : List Char) : Option JVal :=
  match v with
  | .obj fields => jLookup fields k
  | _ => none

/-- src/ejson.js `processEjson`, with the two external collaborators the
spec places out of scope abstracted away: the already-loaded parsed
document stands in for `getConfigJson` (file loading), and the injected
`getPrivateKey` resolver is a function from the value of
`rawConf['_public_key']` (`none` when the property is absent) to a
private-key text or a thrown error.  The source resolves the key first
and then walks the document. -/
def processEjson (getPrivateKey : Option JVal → Except JsError (List Char)) (rawConf : JVal) :
    Except JsError JVal := do
  let privateKey ← getPrivateKey (rootLookup rawConf (lc "_public_key"))
  processObjectFields rawConf privateKey

/-! ## Store-level model

To settle whether the walker mutates its argument in place, object
identity must be observable, so this second embedding of
`processObjectFields` makes the heap explicit: an object value is a
reference (index) into a store of objects, `structuredClone` copies the
reachable objects into fresh slots, and property writes mutate the store
slot of the object being walked.  Strings and scalars are immutable
values, as in JavaScript.  The walk itself follows src/ejson.js exactly
as in the value-semantics model (arrays are omitted from this heap model;
they behave like objects with index keys). -/

inductive HVal where
  | hstr (s : List Char)
  | hnum (n : Int)
  | hbool (b : Bool)
  | hnull
  | href (a : Nat)
deriving Repr, DecidableEq

/-- A heap object: association list of properties in property order. -/
abbrev HObj := List (List Char × HVal)

/-- The store: objects addressed by list index. -/
abbrev Store := List HObj

/-- Property read in the heap model. -/
def hLookup : HObj → List Char → Option HVal
  | [], _ => none
  | (k', v) :: rest, k => if k' = k then some v else hLookup rest k

/-- Property write in the heap model. -/
def hSetField : HObj → List Char → HVal → HObj
  | [], k, v => [(k, v)]
  | (k', v') :: rest, k, v => if k' = k then (k, v) :: rest else (k', v') :: hSetField rest k v

/-- JavaScript falsiness of a heap value (references are objects, truthy). -/
def hFalsy : HVal → Bool
  | .hstr s => s.isEmpty
  | .hnum n => n == 0
  | .hbool b => !b
  | .hnull => true
  | .href _ => false

/-- Falsiness of a heap property read. -/
def hFalsyOpt : Option HVal → Bool
  | none => true
  | some v => hFalsy v

/-- Heap values of `typeof 'object'`: references and `null`. -/
def hObjTyped : HVal → Bool
  | .href _ => true
  | .hnull => true
  | _ => false

/-- One field of a `structuredClone` deep copy: clone the value with `sub`,
threading the store. -/
def cloneFieldsWith (sub : Store → HVal → Store × HVal) : Store → HObj → Store × HObj
  | s, [] => (s, [])
  | s, (k, v) :: rest =>
    let (s1, v') := sub s v
    let (s2, r') := cloneFieldsWith sub s1 rest
    (s2, (k, v') :: r')

/-- `structuredClone` in the heap model: deep-copy the objects reachable
from a value into fresh slots appended to the store (fuel bounds the
copied depth; the theorems never rely on the out-of-fuel branch).
Scalars and strings are immutable values and are returned as they are. -/
def cloneH : Nat → Store → HVal → Store × HVal
  | 0, s, .href _ => (s, .hnull)
  | f + 1, s, .href a =>
    let r := cloneFieldsWith (fun s' v => cloneH f s' v) s (s.getD a [])
    (r.1 ++ [r.2], .href r.1.length)
  | _, s, w => (s, w)

/-- The `for (const key in configJson)` loop in the heap model, walking the
object in slot `a` over the snapshot of its keys; `sub` is the recursive
walker applied to child values of `typeof 'object'`. -/
def walkWith (sub : Store → HVal → Except JsError (Store × HVal)) (privateKey : List Char) :
    Store → Nat → List (List Char) → Except JsError Store
  | s, _, [] => .ok s
  | s, a, key :: rest =>
    let obj := s.getD a []
    if isUnderscoreKey key then
      let keyName := key.drop 1
      if hFalsyOpt (hLookup obj keyName) then
        match hLookup obj key with
        | some v => walkWith sub privateKey (s.set a (hSetField obj keyName v)) a rest
        | none => walkWith sub privateKey s a rest
      else walkWith sub privateKey s a rest
    else
      match hLookup obj key with
      | some (.hstr str) =>
        if isEjTagged str then do
          let parsed ← parseEncryptedValue str
          let pt ← decrypt parsed.box parsed.nonce parsed.encrypterPublic privateKey
          walkWith sub privateKey (s.set a (hSetField obj key (.hstr pt))) a rest
        else walkWith sub privateKey s a rest
      | some (.hnum _) => walkWith sub privateKey s a rest
      | some (.hbool _) => walkWith sub privateKey s a rest
      | some v => do
        let r ← sub s v
        walkWith sub privateKey (r.1.set a (hSetField (r.1.getD a []) key r.2)) a rest
      | none => walkWith sub privateKey s a rest

/-- One level of src/ejson.js `processObjectFields` in the heap model:
clone the argument, then walk the clone, mutating the cloned object's
store slot.  Returns the possibly extended store and the result value
(the reference to the fresh clone, when the argument was a reference). -/
def processHLevel (sub : Store → HVal → Except JsError (Store × HVal)) (cloneFuel : Nat)
    (s : Store) (v : HVal) (privateKey : List Char) : Except JsError (Store × HVal) :=
  let r := cloneH cloneFuel s v
  match r.2 with
  | .href a => do
    let s2 ← walkWith sub privateKey r.1 a ((r.1.getD a []).map Prod.fst)
    return (s2, .href a)
  | w => .ok (r.1, w)

/-- src/ejson.js `processObjectFields` in the heap model, with recursion
fuel (the out-of-fuel branch reports an artificial error; the theorems
and examples always run with adequate fuel). -/
def processH : Nat → Store → HVal → List Char → Except JsError (Store × HVal)
  | 0, s, v, privateKey =>
    processHLevel (fun _ _ => .error (.jsError (lc "fuel"))) 1 s v privateKey
  | fuel + 1, s, v, privateKey =>
    processHLevel (fun s' w => processH fuel s' w privateKey) (fuel + 2) s v privateKey

/-! ## Codec lemmas -/

theorem b64ValOf_charOf : ∀ v, v < 64 → b64ValOf (b64CharOf v) = v := by decide

theorem isB64Alpha_charOf : ∀ v, v < 64 → isB64Alpha (b64CharOf v) = true := by decide

theorem isB64Alpha_pad : isB64Alpha '=' = false := by decide

/-- Base64 inverts its encoding on byte lists. -/
theorem b64_roundtrip : ∀ bs : List Nat, (∀ b ∈ bs, b < 256) → b64dec (b64enc bs) = bs
  | [], _ => by simp [b64enc, b64dec, b64decCore]
  | [b1], h => by
    have hb1 : b1 < 256 := h b1 (by simp)
    have h1 : b1 / 4 < 64 := by omega
    have h2 : b1 % 4 * 16 < 64 := by omega
    simp only [b64enc, b64dec, List.filter_cons, isB64Alpha_charOf _ h1, isB64Alpha_charOf _ h2,
      isB64Alpha_pad, if_true, if_false, List.filter_nil, b64decCore,
      b64ValOf_charOf _ h1, b64ValOf_charOf _ h2, List.cons.injEq, and_true]
    omega
  | [b1, b2], h => by
    have hb1 : b1 < 256 := h b1 (by simp)
    have hb2 : b2 < 256 := h b2 (by simp)
    have h1 : b1 / 4 < 64 := by omega
    have h2 : b1 % 4 * 16 + b2 / 16 < 64 := by omega
    have h3 : b2 % 16 * 4 < 64 := by omega
    simp only [b64enc, b64dec, List.filter_cons, isB64Alpha_charOf _ h1, isB64Alpha_charOf _ h2,
      isB64Alpha_charOf _ h3, isB64Alpha_pad, if_true, if_false, List.filter_nil, b64decCore,
      b64ValOf_charOf _ h1, b64ValOf_charOf _ h2, b64ValOf_charOf _ h3,
      List.cons.injEq, and_true]
    omega
  | b1 :: b2 :: b3 :: rest, h => by
    have hb1 : b1 < 256 := h b1 (by simp)
    have hb2 : b2 < 256 := h b2 (by simp)
    have hb3 : b3 < 256 := h b3 (by simp)
    have ih := b64_roundtrip rest (fun b hb => h b (by simp [hb]))
    have h1 : b1 / 4 < 64 := by omega
    have h2 : b1 % 4 * 16 + b2 / 16 < 64 := by omega
    have h3 : b2 % 16 * 4 + b3 / 64 < 64 := by omega
    have h4 : b3 % 64 < 64 := by omega
    simp only [b64dec] at ih
    simp only [b64enc, b64dec, List.filter_cons, isB64Alpha_charOf _ h1, isB64Alpha_charOf _ h2,
      isB64Alpha_charOf _ h3, isB64Alpha_charOf _ h4, if_true, b64decCore, ih,
      b64ValOf_charOf _ h1, b64ValOf_charOf _ h2, b64ValOf_charOf _ h3, b64ValOf_charOf _ h4,
      List.cons.injEq, and_true]
    omega

theorem char_toNat_lt (c : Char) : c.toNat < 1114112 := by
  rcases c.valid with h | ⟨_, h⟩
  · exact Nat.lt_trans h (by norm_num)
  · exact h

/-- Every byte of the UTF-8 encoding of one character is below 256. -/
theorem utf8encChar_lt (c : Char) : ∀ b ∈ utf8encChar c, b < 256 := by
  have hv := char_toNat_lt c
  intro b hb
  unfold utf8encChar at hb
  split at hb
  · simp only [List.mem_singleton] at hb; omega
  · split at hb
    · simp only [List.mem_cons, List.not_mem_nil, or_false] at hb; omega
    · split at hb <;> simp only [List.mem_cons, List.not_mem_nil, or_false] at hb <;> omega

/-- Every byte of the UTF-8 encoding of a string is below 256. -/
theorem utf8enc_lt : ∀ s : List Char, ∀ b ∈ utf8enc s, b < 256
  | [] => by simp [utf8enc]
  | c :: cs => by
    intro b hb
    simp only [utf8enc, List.mem_append] at hb
    rcases hb with hb | hb
    · exact utf8encChar_lt c b hb
    · exact utf8enc_lt cs b hb

/-- Decoding inverts encoding, one character at a time. -/
theorem utf8decFuel_suff : ∀ (f1 f2 : Nat) (l : List Nat), l.length ≤ f1 → l.length ≤ f2 →
    utf8decFuel f1 l = utf8decFuel f2 l := by
  intro f1
  induction f1 with
  | zero =>
    intro f2 l h1 _
    have : l = [] := List.eq_nil_of_length_eq_zero (by omega)
    subst this
    cases f2 <;> rfl
  | succ g ih =>
    intro f2 l h1 h2
    cases l with
    | nil => cases f2 <;> rfl
    | cons b rest =>
      cases f2 with
      | zero => simp at h2
      | succ g2 =>
        simp only [List.length_cons] at h1 h2
        simp only [utf8decFuel]
        split_ifs <;> congr 1 <;> apply ih g2 <;>
          first
          | omega
          | (simp only [List.length_drop]; omega)

/-- Decoding inverts encoding, one character at a time, at any fuel. -/
theorem utf8decFuel_encChar (c : Char) (bs : List Nat) (fuel : Nat) :
    utf8decFuel (fuel + 1) (utf8encChar c ++ bs) = c :: utf8decFuel fuel bs := by
  have hv := char_toNat_lt c
  by_cases h1 : c.toNat < 128
  · rw [utf8encChar, if_pos h1, List.cons_append, List.nil_append, utf8decFuel, if_pos h1,
      Char.ofNat_toNat]
  · by_cases h2 : c.toNat < 2048
    · have e1 : ¬(192 + c.toNat / 64 < 128) := by omega
      have e2 : 192 + c.toNat / 64 < 224 := by omega
      rw [utf8encChar, if_neg h1, if_pos h2]
      simp only [List.cons_append, List.nil_append]
      simp only [utf8decFuel, if_neg e1, if_pos e2,
        List.headD_cons, List.drop_succ_cons, List.drop_zero]
      have e3 : (192 + c.toNat / 64 - 192) * 64 + (128 + c.toNat % 64 - 128) = c.toNat := by omega
      rw [e3, Char.ofNat_toNat]
    · by_cases h3 : c.toNat < 65536
      · have e1 : ¬(224 + c.toNat / 4096 < 128) := by omega
        have e2 : ¬(224 + c.toNat / 4096 < 224) := by omega
        have e3 : 224 + c.toNat / 4096 < 240 := by omega
        rw [utf8encChar, if_neg h1, if_neg h2, if_pos h3]
        simp only [List.cons_append, List.nil_append]
        simp only [utf8decFuel, if_neg e1, if_neg e2, if_pos e3,
          List.headD_cons, List.drop_succ_cons, List.drop_zero]
        have e4 : (224 + c.toNat / 4096 - 224) * 4096 + (128 + c.toNat / 64 % 64 - 128) * 64 +
            (128 + c.toNat % 64 - 128) = c.toNat := by omega
        rw [e4, Char.ofNat_toNat]
      · have e1 : ¬(240 + c.toNat / 262144 < 128) := by omega
        have e2 : ¬(240 + c.toNat / 262144 < 224) := by omega
        have e3 : ¬(240 + c.toNat / 262144 < 240) := by omega
        rw [utf8encChar, if_neg h1, if_neg h2, if_neg h3]
        simp only [List.cons_append, List.nil_append]
        simp only [utf8decFuel, if_neg e1, if_neg e2, if_neg e3,
          List.headD_cons, List.drop_succ_cons, List.drop_zero]
        have e4 : (240 + c.toNat / 262144 - 240) * 262144 + (128 + c.toNat / 4096 % 64 - 128) * 4096 +
            (128 + c.toNat / 64 % 64 - 128) * 64 + (128 + c.toNat % 64 - 128) = c.toNat := by omega
        rw [e4, Char.ofNat_toNat]

theorem utf8encChar_length_pos (c : Char) : 1 ≤ (utf8encChar c).length := by
  unfold utf8encChar
  split_ifs <;> simp

/-- UTF-8 decoding inverts UTF-8 encoding. -/
theorem utf8_roundtrip : ∀ s : List Char, utf8dec (utf8enc s) = s
  | [] => rfl
  | c :: cs => by
    have hpos := utf8encChar_length_pos c
    have hlen : (utf8encChar c ++ utf8enc cs).length =
        ((utf8encChar c).length - 1 + (utf8enc cs).length) + 1 := by
      simp only [List.length_append]
      omega
    rw [utf8enc]
    simp only [utf8dec]
    rw [hlen, utf8decFuel_encChar]
    congr 1
    rw [utf8decFuel_suff ((utf8encChar c).length - 1 + (utf8enc cs).length)
      (utf8enc cs).length (utf8enc cs) (by omega) (Nat.le_refl _)]
    exact utf8_roundtrip cs

/-! ## Box lemmas -/

theorem foldl_mod251_replicate_zero :
    ∀ n, List.foldl (fun a b => (a * 256 + b) % 251) 0 (List.replicate n 0) = 0
  | 0 => rfl
  | n + 1 => by
    rw [List.replicate_succ, List.foldl_cons]
    show List.foldl (fun a b => (a * 256 + b) % 251) ((0 * 256 + 0) % 251) _ = 0
    norm_num
    exact foldl_mod251_replicate_zero n

theorem naclPub_length (sk : List Nat) : (naclPub sk).length = 32 := by simp [naclPub]

theorem pkElem_naclPub (sk : List Nat) : pkElem (naclPub sk) = 7 ^ skScalar sk % 251 := by
  unfold pkElem naclPub
  rw [List.foldl_append, foldl_mod251_replicate_zero, List.foldl_cons, List.foldl_nil]
  omega

/-- Key-agreement symmetry of the modelled primitive: the shared key of my
secret key with your public key is the shared key of your secret key with
my public key. -/
theorem sharedKey_symm (a b : List Nat) : sharedKey (naclPub a) b = sharedKey (naclPub b) a := by
  unfold sharedKey
  rw [pkElem_naclPub, pkElem_naclPub, ← Nat.pow_mod, ← Nat.pow_mod, ← pow_mul, ← pow_mul,
    Nat.mul_comm]

theorem naclBox_bytes_lt (m n pk sk c : List Nat) (h : naclBox m n pk sk = some c) :
    ∀ b ∈ c, b < 256 := by
  unfold naclBox at h
  split at h
  · cases h
    intro b hb
    rcases List.mem_cons.mp hb with hb | hb
    · subst hb; unfold tagByte; omega
    · obtain ⟨b0, _, hb0⟩ := List.mem_map.mp hb
      omega
  · cases h

theorem map_stream_roundtrip (ks : Nat) (hks : ks < 256) :
    ∀ m : List Nat, (∀ b ∈ m, b < 256) →
      (m.map (fun b => (b + ks) % 256)).map (fun b => (b + (256 - ks)) % 256) = m
  | [], _ => rfl
  | b :: rest, h => by
    have hb : b < 256 := h b (by simp)
    rw [List.map_cons, List.map_cons,
      map_stream_roundtrip ks hks rest (fun x hx => h x (by simp [hx]))]
    congr 1
    omega

/-- Opening a sealed box with the symmetric key material recovers the
message bytes. -/
theorem naclBoxOpen_naclBox (m n pkE skE pkD skD c : List Nat)
    (hk : sharedKey pkE skE = sharedKey pkD skD)
    (hn : n.length = 24) (hpkD : pkD.length = 32) (hskD : skD.length = 32)
    (hm : ∀ b ∈ m, b < 256)
    (hbox : naclBox m n pkE skE = some c) :
    naclBoxOpen c n pkD skD = some m := by
  unfold naclBox at hbox
  split at hbox
  · cases hbox
    unfold naclBoxOpen
    rw [if_pos (by simp [hn, hpkD, hskD])]
    dsimp only
    rw [← hk, if_pos rfl, map_stream_roundtrip _ (by unfold ksByte; omega) m hm]
  · cases hbox

/-- C2: round-trip of the box codec's seal and open over their textual
encodings — for every plaintext, every nonce decoding to 24 raw bytes,
and every pair of valid keypairs (each public-key text decodes to the
public key of the corresponding 32-byte secret key), decrypting the
encryption of the plaintext with the counterpart key material returns
the plaintext. -/
theorem encrypt_decrypt_roundtrip (P nTxt pkS pkR skS skR : List Char)
    (hn : (b64dec nTxt).length = 24)
    (hsS : (hexdec skS).length = 32)
    (hsR : (hexdec skR).length = 32)
    (hpS : b64dec pkS = naclPub (hexdec skS))
    (hpR : b64dec pkR = naclPub (hexdec skR)) :
    ∃ ct, encrypt P nTxt pkR skS = .ok ct ∧ decrypt ct nTxt pkS skR = .ok P := by
  have hlenR : (b64dec pkR).length = 32 := by rw [hpR, naclPub_length]
  have hlenS : (b64dec pkS).length = 32 := by rw [hpS, naclPub_length]
  have hk : sharedKey (b64dec pkR) (hexdec skS) = sharedKey (b64dec pkS) (hexdec skR) := by
    rw [hpR, hpS]
    exact sharedKey_symm (hexdec skR) (hexdec skS)
  obtain ⟨c₀, hbox⟩ : ∃ c₀, naclBox (utf8enc P) (b64dec nTxt) (b64dec pkR) (hexdec skS) = some c₀ := by
    unfold naclBox
    rw [if_pos (by simp [hn, hlenR, hsS])]
    exact ⟨_, rfl⟩
  refine ⟨b64enc c₀, ?_, ?_⟩
  · unfold encrypt
    rw [hbox]
  · unfold decrypt
    rw [b64_roundtrip c₀ (naclBox_bytes_lt _ _ _ _ c₀ hbox),
      naclBoxOpen_naclBox (utf8enc P) (b64dec nTxt) _ _ _ _ c₀ hk hn hlenS hsR
        (utf8enc_lt P) hbox]
    dsimp only
    rw [utf8_roundtrip]

/-- Witness for the round-trip theorem at concrete key material: the
all-zero 32-byte secret key on both sides, its derived public key, and an
all-zero 24-byte nonce. -/
theorem encrypt_decrypt_roundtrip_witness :
    ∃ ct,
      encrypt (lc "Hello World!") (b64enc (List.replicate 24 0))
          (b64enc (naclPub (hexdec (lc "0000000000000000000000000000000000000000000000000000000000000000"))))
          (lc "0000000000000000000000000000000000000000000000000000000000000000") = .ok ct ∧
      decrypt ct (b64enc (List.replicate 24 0))
          (b64enc (naclPub (hexdec (lc "0000000000000000000000000000000000000000000000000000000000000000"))))
          (lc "0000000000000000000000000000000000000000000000000000000000000000") = .ok (lc "Hello World!") :=
  encrypt_decrypt_roundtrip _ _ _ _ _ _ (by decide) (by decide) (by decide) (by decide) (by decide)

/-! ## Token grammar -/

/-- The decomposition of a token string into the grammar's five parts:
`EJ[` digit `:` pubkey `:` nonce `:` ciphertext `]`. -/
def tokenShape (d : Char) (p n c : List Char) : List Char :=
  'E' :: 'J' :: '[' :: d :: ':' :: (p ++ ':' :: (n ++ ':' :: (c ++ [']'])))

/-- The claim's grammar, following the spec's words: schema digit, 44
base64-class characters, 32 base64-class characters, then a ciphertext of
one or more characters (any). -/
def claimGrammar (s : List Char) : Prop :=
  ∃ d p n c, s = tokenShape d p n c ∧ d.isDigit = true ∧
    p.length = 44 ∧ p.all isB64Class = true ∧ n.length = 32 ∧ n.all isB64Class = true ∧ c ≠ []

/-- The grammar the source's regular expression actually accepts: as the
claim's grammar, except that the ciphertext characters must not be line
terminators (JavaScript `.`). -/
def srcGrammar (s : List Char) : Prop :=
  ∃ d p n c, s = tokenShape d p n c ∧ d.isDigit = true ∧
    p.length = 44 ∧ p.all isB64Class = true ∧ n.length = 32 ∧ n.all isB64Class = true ∧
    c ≠ [] ∧ c.all notLineTerm = true

theorem getLast?_some_decomp {α : Type} {l : List α} {a : α} (h : l.getLast? = some a) :
    l = l.dropLast ++ [a] := by
  induction l using List.reverseRecOn with
  | nil => simp at h
  | append_singleton l b _ =>
    rw [List.getLast?_concat] at h
    cases h
    rw [List.dropLast_concat]

/-- The regular-expression match succeeds exactly on strings of the source
grammar, and then yields the five parts of the decomposition. -/
theorem ejsonMatch_eq_some_iff {s : List Char} {d : Char} {p n c : List Char} :
    ejsonMatch s = some (d, p, n, c) ↔
      (s = tokenShape d p n c ∧ d.isDigit = true ∧ p.length = 44 ∧ p.all isB64Class = true ∧
        n.length = 32 ∧ n.all isB64Class = true ∧ c ≠ [] ∧ c.all notLineTerm = true) := by
  constructor
  · intro h
    unfold ejsonMatch at h
    split at h
    case h_2 => exact absurd h (by simp)
    case h_1 d' rest =>
      dsimp only at h
      split at h
      case isFalse => exact absurd h (by simp)
      case isTrue hcond =>
        simp only [Option.some.injEq, Prod.mk.injEq] at h
        obtain ⟨rfl, rfl, rfl, rfl⟩ := h
        simp only [Bool.and_eq_true, decide_eq_true_eq] at hcond
        obtain ⟨⟨⟨⟨⟨hdig, hp44, hpall⟩, h2⟩, hn32, hnall⟩, h4⟩, ⟨hlast, hne⟩, hall⟩ := hcond
        have h2' : rest.drop 44 = ':' :: (rest.drop 44).drop 1 := by
          conv_lhs => rw [← List.take_append_drop 1 (rest.drop 44)]
          rw [h2]
          rfl
        have h4' : ((rest.drop 44).drop 1).drop 32 =
            ':' :: (((rest.drop 44).drop 1).drop 32).drop 1 := by
          conv_lhs => rw [← List.take_append_drop 1 (((rest.drop 44).drop 1).drop 32)]
          rw [h4]
          rfl
        have s5 : (((rest.drop 44).drop 1).drop 32).drop 1 =
            ((((rest.drop 44).drop 1).drop 32).drop 1).dropLast ++ [']'] :=
          getLast?_some_decomp hlast
        have s4 : ((rest.drop 44).drop 1).drop 32 =
            ':' :: (((((rest.drop 44).drop 1).drop 32).drop 1).dropLast ++ [']']) :=
          h4'.trans (congrArg (fun t => ':' :: t) s5)
        have s3 : (rest.drop 44).drop 1 = ((rest.drop 44).drop 1).take 32 ++
            ':' :: (((((rest.drop 44).drop 1).drop 32).drop 1).dropLast ++ [']']) :=
          (List.take_append_drop 32 ((rest.drop 44).drop 1)).symm.trans
            (congrArg (fun t => ((rest.drop 44).drop 1).take 32 ++ t) s4)
        have s2 : rest.drop 44 = ':' :: (((rest.drop 44).drop 1).take 32 ++
            ':' :: (((((rest.drop 44).drop 1).drop 32).drop 1).dropLast ++ [']'])) :=
          h2'.trans (congrArg (fun t => ':' :: t) s3)
        have hrest : rest = rest.take 44 ++ ':' :: (((rest.drop 44).drop 1).take 32 ++
            ':' :: (((((rest.drop 44).drop 1).drop 32).drop 1).dropLast ++ [']'])) :=
          (List.take_append_drop 44 rest).symm.trans
            (congrArg (fun t => rest.take 44 ++ t) s2)
        refine ⟨?_, hdig, hp44, hpall, hn32, hnall, ?_, hall⟩
        · exact congrArg (fun t => 'E' :: 'J' :: '[' :: d' :: ':' :: t) hrest
        · intro hceq
          rw [hceq] at hne
          simp at hne
  · rintro ⟨rfl, hdig, hp44, hpall, hn32, hnall, hcne, hcall⟩
    have e1 : (p ++ ':' :: (n ++ ':' :: (c ++ [']']))).take 44 = p := by
      rw [← hp44]
      exact List.take_left p _
    have e2 : (p ++ ':' :: (n ++ ':' :: (c ++ [']']))).drop 44 = ':' :: (n ++ ':' :: (c ++ [']'])) := by
      rw [← hp44]
      exact List.drop_left p _
    have e3 : (n ++ ':' :: (c ++ [']'])).take 32 = n := by
      rw [← hn32]
      exact List.take_left n _
    have e4 : (n ++ ':' :: (c ++ [']'])).drop 32 = ':' :: (c ++ [']']) := by
      rw [← hn32]
      exact List.drop_left n _
    have e5 : (c ++ [']']).getLast? = some ']' := List.getLast?_concat _
    have e6 : (c ++ [']']).dropLast = c := List.dropLast_concat
    have e7 : c.isEmpty = false := by
      cases c
      · exact absurd rfl hcne
      · rfl
    show ejsonMatch ('E' :: 'J' :: '[' :: d :: ':' :: (p ++ ':' :: (n ++ ':' :: (c ++ [']'])))) = _
    simp only [ejsonMatch]
    rw [e1, e2]
    dsimp only [List.drop_succ_cons, List.drop_zero, List.take_succ_cons, List.take_zero]
    rw [e3, e4]
    dsimp only [List.drop_succ_cons, List.drop_zero, List.take_succ_cons, List.take_zero]
    rw [e5, e6]
    simp [hdig, hp44, hpall, hn32, hnall, e7, hcall]

/-- C1 (amended): `parseEncryptedValue` succeeds exactly on strings of the
grammar `EJ[` digit `:` 44 base64-class chars `:` 32 base64-class chars
`:` one or more non-line-terminator chars `]`, anchored at both ends; on
success it returns the digit's numeric value and the three captured
fields, and on any non-match it throws a single `Error` whose message
carries the offending literal. -/
theorem parseEncryptedValue_spec :
    (∀ s, (∃ t, parseEncryptedValue s = .ok t) ↔ srcGrammar s) ∧
    (∀ d p n c, d.isDigit = true → p.length = 44 → p.all isB64Class = true → n.length = 32 →
      n.all isB64Class = true → c ≠ [] → c.all notLineTerm = true →
      parseEncryptedValue (tokenShape d p n c) =
        .ok { schemaVersion := digitVal d, encrypterPublic := p, nonce := n, box := c }) ∧
    (∀ s, ¬ srcGrammar s → parseEncryptedValue s = .error (.jsError (lc "Invalid EJSON: " ++ s))) := by
  refine ⟨?_, ?_, ?_⟩
  · intro s
    constructor
    · rintro ⟨t, ht⟩
      unfold parseEncryptedValue at ht
      cases hm : ejsonMatch s with
      | none => rw [hm] at ht; cases ht
      | some quad =>
        obtain ⟨d, p, n, c⟩ := quad
        obtain ⟨hs, h1, h2, h3, h4, h5, h6, h7⟩ := ejsonMatch_eq_some_iff.mp hm
        exact ⟨d, p, n, c, hs, h1, h2, h3, h4, h5, h6, h7⟩
    · rintro ⟨d, p, n, c, hs, h1, h2, h3, h4, h5, h6, h7⟩
      have hm : ejsonMatch s = some (d, p, n, c) :=
        ejsonMatch_eq_some_iff.mpr ⟨hs, h1, h2, h3, h4, h5, h6, h7⟩
      exact ⟨{ schemaVersion := digitVal d, encrypterPublic := p, nonce := n, box := c },
        by simp [parseEncryptedValue, hm]⟩
  · intro d p n c h1 h2 h3 h4 h5 h6 h7
    have hm : ejsonMatch (tokenShape d p n c) = some (d, p, n, c) :=
      ejsonMatch_eq_some_iff.mpr ⟨rfl, h1, h2, h3, h4, h5, h6, h7⟩
    simp [parseEncryptedValue, hm]
  · intro s hns
    cases hm : ejsonMatch s with
    | none => simp [parseEncryptedValue, hm]
    | some quad =>
      obtain ⟨d, p, n, c⟩ := quad
      obtain ⟨hs, h1, h2, h3, h4, h5, h6, h7⟩ := ejsonMatch_eq_some_iff.mp hm
      exact absurd ⟨d, p, n, c, hs, h1, h2, h3, h4, h5, h6, h7⟩ hns

/-- Witness: a concrete token of the grammar parses to its four fields. -/
theorem parseEncryptedValue_spec_witness :
    parseEncryptedValue (tokenShape '1' (List.replicate 44 'A') (List.replicate 32 'A') (lc "abc")) =
      .ok { schemaVersion := 1, encrypterPublic := List.replicate 44 'A',
            nonce := List.replicate 32 'A', box := lc "abc" } :=
  parseEncryptedValue_spec.2.1 '1' (List.replicate 44 'A') (List.replicate 32 'A') (lc "abc")
    (by decide) (by decide) (by decide) (by decide) (by decide) (by decide) (by decide)

/-- Counterexample to C1 as stated: the string whose ciphertext field is a
single newline character matches the claim's grammar (ciphertext: one or
more chars), yet `parseEncryptedValue` throws, because JavaScript `.`
does not match a line terminator. -/
theorem parseEncryptedValue_claim_counterexample :
    claimGrammar (tokenShape '1' (List.replicate 44 'A') (List.replicate 32 'A') ['\n']) ∧
    parseEncryptedValue (tokenShape '1' (List.replicate 44 'A') (List.replicate 32 'A') ['\n']) =
      .error (.jsError (lc "Invalid EJSON: " ++
        tokenShape '1' (List.replicate 44 'A') (List.replicate 32 'A') ['\n'])) := by
  constructor
  · exact ⟨'1', List.replicate 44 'A', List.replicate 32 'A', ['\n'], rfl, by decide, by decide,
      by decide, by decide, by decide, by decide⟩
  · rfl

/-! ## Behaviour of decrypt on authentication failure (C5) -/

/-- C5: at an input the authenticated primitive rejects (here: an empty
ciphertext), `nacl.box.open` returns its explicit failure indicator
(`none`, nacl's `null`), but the box codec's `decrypt` then throws a
`TypeError` out of `Buffer.from(null)` instead of returning a failure
indicator.  The theorem evaluates the code at the failing input. -/
theorem decrypt_authFailure_throws :
    naclBoxOpen (b64dec (lc "")) (b64dec (b64enc (List.replicate 24 0)))
        (b64dec (b64enc (List.replicate 32 0)))
        (hexdec (lc "0000000000000000000000000000000000000000000000000000000000000000")) = none ∧
    decrypt (lc "") (b64enc (List.replicate 24 0)) (b64enc (List.replicate 32 0))
        (lc "0000000000000000000000000000000000000000000000000000000000000000") =
      .error (.jsTypeError (lc "The first argument must be of type string or an instance of Buffer, ArrayBuffer, or Array or an Array-like Object. Received null")) :=
  ⟨rfl, rfl⟩

/-! ## Missing public key (C3) -/

/-- Counterexample to C3 as stated: a document without `_public_key` does
not fail with a missing-key error — the resolver is invoked (with the
absent value) and when it returns a key the whole operation succeeds;
when it throws, its own error is what propagates. -/
theorem processEjson_missingKey_counterexample :
    rootLookup (.obj [(lc "a", .num 1)]) (lc "_public_key") = none ∧
    processEjson (fun _ => .ok (lc "aa")) (.obj [(lc "a", .num 1)]) = .ok (.obj [(lc "a", .num 1)]) ∧
    processEjson (fun _ => .error (.jsError (lc "resolver failed"))) (.obj [(lc "a", .num 1)]) =
      .error (.jsError (lc "resolver failed")) :=
  ⟨rfl, rfl, rfl⟩

/-- C3 (amended): for a document without `_public_key`, `processEjson`
performs no missing-key check: it passes the absent value (`undefined`,
here `none`) straight to the key resolver, fails with the resolver's own
error when the resolver throws, and otherwise proceeds to walk the
document with whatever key the resolver returned. -/
theorem processEjson_missingKey_amended :
    ∀ (resolver : Option JVal → Except JsError (List Char)) (rawConf : JVal),
      rootLookup rawConf (lc "_public_key") = none →
      (∀ e, resolver none = .error e → processEjson resolver rawConf = .error e) ∧
      (∀ k, resolver none = .ok k →
        processEjson resolver rawConf = processObjectFields rawConf k) := by
  intro resolver rawConf h
  constructor
  · intro e he
    unfold processEjson
    rw [h, he]
    rfl
  · intro k hk
    unfold processEjson
    rw [h, hk]
    rfl

/-- Witness: the amended C3 theorem applied to the empty document and a
resolver returning an empty key. -/
theorem processEjson_missingKey_amended_witness :
    processEjson (fun _ => .ok []) (.obj []) = processObjectFields (.obj []) [] :=
  (processEjson_missingKey_amended (fun _ => .ok []) (.obj []) rfl).2 [] rfl

/-! ## Fail-fast and the offending key path (C6) -/

/-- Counterexample to C6 as stated: the error thrown for a malformed token
carries the offending literal value, but does not name the offending key
path — the key `SECRET` appears nowhere in the message. -/
theorem processObjectFields_keyPath_counterexample :
    processObjectFields (.obj [(lc "SECRET", .str (lc "EJ[x]"))]) (lc "k") =
      .error (.jsError (lc "Invalid EJSON: EJ[x]")) ∧
    ¬ (lc "SECRET") <:+: (lc "Invalid EJSON: EJ[x]") := by
  constructor
  · rfl
  · decide

/-- The combined parse-then-decrypt outcome of one `EJ[`-tagged string:
the error the walker's string branch would throw for it, if any. -/
def tokenError (pk s : List Char) : Option JsError :=
  match parseEncryptedValue s with
  | .error e => some e
  | .ok t =>
    match decrypt t.box t.nonce t.encrypterPublic pk with
    | .error e => some e
    | .ok _ => none

/-- The recursion continuation the walker uses at a given fuel level. -/
def subAt : Nat → List Char → JVal → Except JsError JVal
  | 0, _, w => .ok w
  | fuel + 1, pk, w => processVal fuel w pk

theorem processVal_eq_subAt : ∀ (fuel : Nat) (v : JVal) (pk : List Char),
    processVal fuel v pk = processOneLevel (subAt fuel pk) pk v := by
  intro fuel v pk
  cases fuel <;> rfl

/-- C6 (amended): the walker is fail-fast.  (1) A visit that throws at any
position of a level's key loop — after arbitrarily many earlier keys have
been processed — aborts the loop with exactly that error, for every
choice of the keys after it (so none of them is attempted and no partial
document is returned).  (2) A visit of a non-underscore key holding an
`EJ[`-tagged string on which the token parser or the box codec fails
throws exactly that failure.  (3) A visited child of `typeof 'object'`
whose recursive processing throws propagates that error, so failures at
any nesting depth surface unchanged.  (4)/(5) The same two facts hold for
positions inside arrays.  (6)/(7)/(8) An erroring key or element loop
aborts `processVal` — and the entry point `processObjectFields` — with
that very error.  (9) The parse failure's error carries the offending
literal value (and nothing else, in particular no key path). -/
theorem processObjectFields_failFast :
    (∀ (sub : JVal → Except JsError JVal) (pk : List Char)
       (obj obj₁ : List (List Char × JVal)) (ks₁ ks₂ : List (List Char))
       (key : List Char) (e : JsError),
       processKeys sub pk obj ks₁ = .ok obj₁ →
       stepField sub pk obj₁ key = .error e →
       processKeys sub pk obj (ks₁ ++ key :: ks₂) = .error e) ∧
    (∀ (sub : JVal → Except JsError JVal) (pk : List Char)
       (obj : List (List Char × JVal)) (key s : List Char) (e : JsError),
       isUnderscoreKey key = false → jLookup obj key = some (.str s) →
       isEjTagged s = true → tokenError pk s = some e →
       stepField sub pk obj key = .error e) ∧
    (∀ (sub : JVal → Except JsError JVal) (pk : List Char)
       (obj : List (List Char × JVal)) (key : List Char) (v : JVal) (e : JsError),
       isUnderscoreKey key = false → jLookup obj key = some v →
       isObjTyped v = true → sub v = .error e →
       stepField sub pk obj key = .error e) ∧
    (∀ (sub : JVal → Except JsError JVal) (pk : List Char)
       (es₁ es₂ l : List JVal) (v : JVal) (e : JsError),
       processElemsW sub pk es₁ = .ok l →
       stepElem sub pk v = .error e →
       processElemsW sub pk (es₁ ++ v :: es₂) = .error e) ∧
    (∀ (sub : JVal → Except JsError JVal) (pk s : List Char) (e : JsError),
       isEjTagged s = true → tokenError pk s = some e →
       stepElem sub pk (.str s) = .error e) ∧
    (∀ (fuel : Nat) (pk : List Char) (fields : List (List Char × JVal)) (e : JsError),
       processKeys (subAt fuel pk) pk fields (fields.map Prod.fst) = .error e →
       processVal fuel (.obj fields) pk = .error e) ∧
    (∀ (fuel : Nat) (pk : List Char) (es : List JVal) (e : JsError),
       processElemsW (subAt fuel pk) pk es = .error e →
       processVal fuel (.arr es) pk = .error e) ∧
    (∀ (pk : List Char) (fields : List (List Char × JVal)) (e : JsError),
       processKeys (subAt (jdepth (.obj fields)) pk) pk fields (fields.map Prod.fst)
         = .error e →
       processObjectFields (.obj fields) pk = .error e) ∧
    (∀ (s : List Char) (e : JsError),
       parseEncryptedValue s = .error e → e = .jsError (lc "Invalid EJSON: " ++ s)) := by
  refine ⟨?_, ?_, ?_, ?_, ?_, ?_, ?_, ?_, ?_⟩
  · intro sub pk obj obj₁ ks₁ ks₂ key e
    induction ks₁ generalizing obj with
    | nil =>
      intro hok hstep
      simp only [processKeys] at hok
      cases hok
      simp only [List.nil_append, processKeys, Bind.bind, Except.bind, hstep]
    | cons k ks ih =>
      intro hok hstep
      simp only [processKeys, Bind.bind, Except.bind] at hok
      cases hs : stepField sub pk obj k with
      | error e' => rw [hs] at hok; exact (Except.noConfusion hok)
      | ok obj' =>
        rw [hs] at hok
        dsimp only at hok
        have hrec := ih obj' hok hstep
        show processKeys sub pk obj ((k :: ks) ++ key :: ks₂) = .error e
        simp only [List.cons_append, processKeys, Bind.bind, Except.bind, hs]
        exact hrec
  · intro sub pk obj key s e hu hlk ht htok
    unfold tokenError at htok
    unfold stepField
    rw [if_neg (by simp [hu])]
    simp only [hlk, if_pos ht, Bind.bind, Except.bind]
    cases hp : parseEncryptedValue s with
    | error e' =>
      rw [hp] at htok
      dsimp only at htok
      injection htok with htok2
      dsimp only
      rw [htok2]
    | ok t =>
      rw [hp] at htok
      dsimp only at htok
      dsimp only
      cases hd : decrypt t.box t.nonce t.encrypterPublic pk with
      | error e' =>
        rw [hd] at htok
        dsimp only at htok
        injection htok with htok2
        dsimp only
        rw [htok2]
      | ok pt =>
        rw [hd] at htok
        exact (Option.noConfusion htok)
  · intro sub pk obj key v e hu hlk hv hsub
    unfold stepField
    rw [if_neg (by simp [hu])]
    cases v with
    | str s => exact absurd hv (by simp [isObjTyped])
    | num n => exact absurd hv (by simp [isObjTyped])
    | bool b => exact absurd hv (by simp [isObjTyped])
    | null => simp only [hlk, hsub, Bind.bind, Except.bind]
    | arr es => simp only [hlk, hsub, Bind.bind, Except.bind]
    | obj fs => simp only [hlk, hsub, Bind.bind, Except.bind]
  · intro sub pk es₁ es₂ l v e
    induction es₁ generalizing l with
    | nil =>
      intro hok hstep
      simp only [List.nil_append, processElemsW, Bind.bind, Except.bind, hstep]
    | cons w ws ih =>
      intro hok hstep
      simp only [processElemsW, Bind.bind, Except.bind] at hok
      cases hr : stepElem sub pk w with
      | error e' => rw [hr] at hok; exact (Except.noConfusion hok)
      | ok r =>
        rw [hr] at hok
        dsimp only at hok
        cases hrs : processElemsW sub pk ws with
        | error e' => rw [hrs] at hok; exact (Except.noConfusion hok)
        | ok rs =>
          have hrec := ih rs hrs hstep
          show processElemsW sub pk ((w :: ws) ++ v :: es₂) = .error e
          simp only [List.cons_append, List.append_eq, processElemsW, Bind.bind,
            Except.bind, hr, hrec]
  · intro sub pk s e ht htok
    unfold tokenError at htok
    unfold stepElem
    simp only [if_pos ht, Bind.bind, Except.bind]
    cases hp : parseEncryptedValue s with
    | error e' =>
      rw [hp] at htok
      dsimp only at htok
      injection htok with htok2
      dsimp only
      rw [htok2]
    | ok t =>
      rw [hp] at htok
      dsimp only at htok
      dsimp only
      cases hd : decrypt t.box t.nonce t.encrypterPublic pk with
      | error e' =>
        rw [hd] at htok
        dsimp only at htok
        injection htok with htok2
        dsimp only
        rw [htok2]
      | ok pt =>
        rw [hd] at htok
        exact (Option.noConfusion htok)
  · intro fuel pk fields e h
    rw [processVal_eq_subAt]
    simp only [processOneLevel, Functor.map, Except.map, h]
  · intro fuel pk es e h
    rw [processVal_eq_subAt]
    simp only [processOneLevel, Functor.map, Except.map, h]
  · intro pk fields e h
    unfold processObjectFields
    rw [processVal_eq_subAt]
    simp only [processOneLevel, Functor.map, Except.map, h]
  · intro s e h
    unfold parseEncryptedValue at h
    cases hm : ejsonMatch s with
    | some t => rw [hm] at h; exact (Except.noConfusion h)
    | none =>
      rw [hm] at h
      dsimp only at h
      injection h with h2
      exact h2.symm

/-- Witness: the fail-fast theorem applied to a document whose malformed
token sits at the SECOND field, after a successfully processed field and
before a further (never attempted) encrypted one: the whole operation
returns the parse error for `EJ[x]`. -/
theorem processObjectFields_failFast_witness :
    processObjectFields
        (.obj [(lc "A", .str (lc "ok")), (lc "SECRET", .str (lc "EJ[x]")),
               (lc "B", .str (lc "EJ[y]"))]) (lc "k")
      = .error (.jsError (lc "Invalid EJSON: EJ[x]")) := by
  have hfull := processObjectFields_failFast
  refine hfull.2.2.2.2.2.2.2.1 (lc "k")
    [(lc "A", .str (lc "ok")), (lc "SECRET", .str (lc "EJ[x]")), (lc "B", .str (lc "EJ[y]"))]
    (.jsError (lc "Invalid EJSON: EJ[x]")) ?_
  exact hfull.1
    (subAt (jdepth (.obj [(lc "A", .str (lc "ok")), (lc "SECRET", .str (lc "EJ[x]")),
      (lc "B", .str (lc "EJ[y]"))])) (lc "k")) (lc "k")
    [(lc "A", .str (lc "ok")), (lc "SECRET", .str (lc "EJ[x]")), (lc "B", .str (lc "EJ[y]"))]
    [(lc "A", .str (lc "ok")), (lc "SECRET", .str (lc "EJ[x]")), (lc "B", .str (lc "EJ[y]"))]
    [lc "A"] [lc "B"] (lc "SECRET") (.jsError (lc "Invalid EJSON: EJ[x]"))
    (by rfl) (by rfl)

/-! ## Arrays and scalars (C7) -/

/-- A well-formed token whose fields are derived from all-zero key
material and whose ciphertext decrypts to the empty string under
`zeroKey`. -/
def zeroTok : List Char :=
  tokenShape '1' (b64enc (List.replicate 32 0)) (b64enc (List.replicate 24 0)) (lc "Bw==")

/-- The all-zero 32-byte secret key, hex-encoded. -/
def zeroKey : List Char := lc "0000000000000000000000000000000000000000000000000000000000000000"

/-- Counterexample to C7 as stated: array elements are not left untouched.
A malformed `EJ[`-tagged string inside an array is parsed (and aborts the
walk), and a well-formed token inside an array is decrypted and replaced
by its plaintext. -/
theorem arrays_claim_counterexample :
    processObjectFields (.obj [(lc "a", .arr [.str (lc "EJ[x]")])]) (lc "k") =
      .error (.jsError (lc "Invalid EJSON: EJ[x]")) ∧
    processObjectFields (.obj [(lc "a", .arr [.str zeroTok])]) zeroKey =
      .ok (.obj [(lc "a", .arr [.str []])]) :=
  ⟨rfl, rfl⟩

/-- C7 (amended): non-string scalars (numbers, booleans, `null`) are
returned unchanged by the walker, but arrays are not exempt: they have
JavaScript `typeof 'object'` and are traversed element by element, so an
`EJ[`-tagged string element is parsed and decrypted like an object
field. -/
theorem arrays_amended :
    (∀ pk fuel n, processVal fuel (.num n) pk = .ok (.num n)) ∧
    (∀ pk fuel b, processVal fuel (.bool b) pk = .ok (.bool b)) ∧
    (∀ pk fuel, processVal fuel .null pk = .ok .null) ∧
    (∀ (pk key s pt : List Char) (t : EncryptedToken),
      isUnderscoreKey key = false → isEjTagged s = true →
      parseEncryptedValue s = .ok t → decrypt t.box t.nonce t.encrypterPublic pk = .ok pt →
      processObjectFields (.obj [(key, .arr [.str s])]) pk =
        .ok (.obj [(key, .arr [.str pt])])) := by
  refine ⟨?_, ?_, ?_, ?_⟩
  · intro pk fuel n
    cases fuel <;> rfl
  · intro pk fuel b
    cases fuel <;> rfl
  · intro pk fuel
    cases fuel <;> rfl
  · intro pk key s pt t hu ht hp hd
    have hdep : jdepth (.obj [(key, .arr [.str s])]) = 2 := by
      simp [jdepth, jdepthFields, jdepthElems]
    unfold processObjectFields
    rw [hdep]
    simp [processVal, processOneLevel, processKeys, stepField, processElemsW, stepElem,
      jLookup, setField, hu, ht, hp, hd, Bind.bind, Except.bind, Functor.map, Except.map,
      Pure.pure, Except.pure]

/-- Witness: the amended C7 theorem applied to the concrete zero-material
token inside an array, which decrypts to the empty string. -/
theorem arrays_amended_witness :
    processObjectFields (.obj [(lc "b", .arr [.str zeroTok])]) zeroKey =
      .ok (.obj [(lc "b", .arr [.str []])]) :=
  arrays_amended.2.2.2 zeroKey (lc "b") zeroTok []
    { schemaVersion := 1, encrypterPublic := b64enc (List.replicate 32 0),
      nonce := b64enc (List.replicate 24 0), box := lc "Bw==" }
    rfl rfl rfl rfl

/-! ## Idempotence and no-op behaviour (C8) -/

mutual

/-- A value the walker cannot change: no string anywhere in it starts with
`EJ[` and no mapping key anywhere starts with an underscore. -/
def cleanVal : JVal → Bool
  | .str s => !isEjTagged s
  | .num _ => true
  | .bool _ => true
  | .null => true
  | .arr es => cleanElems es
  | .obj fields => cleanFields fields

def cleanElems : List JVal → Bool
  | [] => true
  | v :: rest => cleanVal v && cleanElems rest

def cleanFields : List (List Char × JVal) → Bool
  | [] => true
  | (k, v) :: rest => !isUnderscoreKey k && cleanVal v && cleanFields rest

end

theorem jLookup_mem : ∀ {l : List (List Char × JVal)} {k : List Char} {v : JVal},
    jLookup l k = some v → (k, v) ∈ l := by
  intro l
  induction l with
  | nil => intro k v h; cases h
  | cons kv rest ih =>
    intro k v h
    obtain ⟨k', v'⟩ := kv
    unfold jLookup at h
    split at h
    · cases h
      simp_all
    · exact List.mem_cons_of_mem _ (ih h)

theorem setField_self : ∀ {l : List (List Char × JVal)} {k : List Char} {v : JVal},
    jLookup l k = some v → setField l k v = l := by
  intro l
  induction l with
  | nil => intro k v h; cases h
  | cons kv rest ih =>
    intro k v h
    obtain ⟨k', v'⟩ := kv
    unfold jLookup at h
    unfold setField
    split at h
    · cases h
      simp_all
    · simp_all [ih h]

theorem cleanFields_mem : ∀ {l : List (List Char × JVal)}, cleanFields l = true →
    ∀ kv ∈ l, isUnderscoreKey kv.1 = false ∧ cleanVal kv.2 = true := by
  intro l
  induction l with
  | nil => intro _ kv h; cases h
  | cons kv0 rest ih =>
    intro hl kv h
    obtain ⟨k, v⟩ := kv0
    simp only [cleanFields, Bool.and_eq_true, Bool.not_eq_true'] at hl
    rcases List.mem_cons.mp h with rfl | h
    · exact ⟨hl.1.1, hl.1.2⟩
    · exact ih hl.2 kv h

theorem cleanElems_mem : ∀ {l : List JVal}, cleanElems l = true →
    ∀ v ∈ l, cleanVal v = true := by
  intro l
  induction l with
  | nil => intro _ v h; cases h
  | cons v0 rest ih =>
    intro hl v h
    simp only [cleanElems, Bool.and_eq_true] at hl
    rcases List.mem_cons.mp h with rfl | h
    · exact hl.1
    · exact ih hl.2 v h

theorem processKeys_clean (sub : JVal → Except JsError JVal) (pk : List Char)
    (hsub : ∀ w, cleanVal w = true → sub w = .ok w) :
    ∀ (keys : List (List Char)) (obj : List (List Char × JVal)),
      (∀ k ∈ keys, isUnderscoreKey k = false) → cleanFields obj = true →
      processKeys sub pk obj keys = .ok obj := by
  intro keys
  induction keys with
  | nil => intro obj _ _; rfl
  | cons key rest ih =>
    intro obj hks hobj
    have hk : isUnderscoreKey key = false := hks key (by simp)
    have hrest : ∀ k ∈ rest, isUnderscoreKey k = false := fun k h => hks k (by simp [h])
    cases hl : jLookup obj key with
    | none =>
      simp only [processKeys, stepField, hk, Bool.false_eq_true, if_false, hl, Bind.bind,
        Except.bind]
      exact ih obj hrest hobj
    | some v =>
      have hv : cleanVal v = true := (cleanFields_mem hobj _ (jLookup_mem hl)).2
      cases v with
      | str s =>
        have hs : isEjTagged s = false := by
          simpa [cleanVal, Bool.not_eq_true'] using hv
        simp only [processKeys, stepField, hk, Bool.false_eq_true, if_false, hl, hs, Bind.bind,
          Except.bind]
        exact ih obj hrest hobj
      | num n =>
        simp only [processKeys, stepField, hk, Bool.false_eq_true, if_false, hl, Bind.bind,
          Except.bind]
        exact ih obj hrest hobj
      | bool b =>
        simp only [processKeys, stepField, hk, Bool.false_eq_true, if_false, hl, Bind.bind,
          Except.bind]
        exact ih obj hrest hobj
      | null =>
        simp only [processKeys, stepField, hk, Bool.false_eq_true, if_false, hl, hsub _ hv,
          setField_self hl, Bind.bind, Except.bind, Pure.pure, Except.pure]
        exact ih obj hrest hobj
      | arr es =>
        simp only [processKeys, stepField, hk, Bool.false_eq_true, if_false, hl, hsub _ hv,
          setField_self hl, Bind.bind, Except.bind, Pure.pure, Except.pure]
        exact ih obj hrest hobj
      | obj fs =>
        simp only [processKeys, stepField, hk, Bool.false_eq_true, if_false, hl, hsub _ hv,
          setField_self hl, Bind.bind, Except.bind, Pure.pure, Except.pure]
        exact ih obj hrest hobj

theorem processElemsW_clean (sub : JVal → Except JsError JVal) (pk : List Char)
    (hsub : ∀ w, cleanVal w = true → sub w = .ok w) :
    ∀ es : List JVal, cleanElems es = true → processElemsW sub pk es = .ok es := by
  intro es
  induction es with
  | nil => intro _; rfl
  | cons v rest ih =>
    intro hes
    simp only [cleanElems, Bool.and_eq_true] at hes
    have hstep : stepElem sub pk v = .ok v := by
      cases v with
      | str s =>
        have hs : isEjTagged s = false := by
          simpa [cleanVal, Bool.not_eq_true'] using hes.1
        simp [stepElem, hs]
      | num n => rfl
      | bool b => rfl
      | null => exact hsub _ hes.1
      | arr es2 => exact hsub _ hes.1
      | obj fs => exact hsub _ hes.1
    simp only [processElemsW, hstep, ih hes.2, Bind.bind, Except.bind, Pure.pure, Except.pure]

theorem keys_of_cleanFields {fields : List (List Char × JVal)} (h : cleanFields fields = true) :
    ∀ k ∈ fields.map Prod.fst, isUnderscoreKey k = false := by
  intro k hk
  obtain ⟨kv, hmem, rfl⟩ := List.mem_map.mp hk
  exact (cleanFields_mem h kv hmem).1

theorem processOneLevel_clean (sub : JVal → Except JsError JVal) (pk : List Char)
    (hsub : ∀ w, cleanVal w = true → sub w = .ok w) (v : JVal) (hv : cleanVal v = true) :
    processOneLevel sub pk v = .ok v := by
  cases v with
  | obj fields =>
    simp only [processOneLevel,
      processKeys_clean sub pk hsub (fields.map Prod.fst) fields (keys_of_cleanFields hv) hv,
      Functor.map, Except.map]
  | arr es =>
    simp only [processOneLevel, processElemsW_clean sub pk hsub es hv, Functor.map, Except.map]
  | str s => rfl
  | num n => rfl
  | bool b => rfl
  | null => rfl

theorem cleanVal_noop : ∀ (fuel : Nat) (v : JVal) (pk : List Char), cleanVal v = true →
    processVal fuel v pk = .ok v := by
  intro fuel
  induction fuel with
  | zero =>
    intro v pk hv
    exact processOneLevel_clean _ pk (fun _ _ => rfl) v hv
  | succ f ihf =>
    intro v pk hv
    exact processOneLevel_clean _ pk (fun w hw => ihf w pk hw) v hv

/-- Counterexample to C8 as stated: a document pairing an underscore key
with a token that decrypts to the empty (falsy) string.  The first
decryption yields `x = ""`; decrypting the result again overwrites the
falsy `x` with `_x`'s value, so the outcome of decrypting twice differs
from decrypting once — and a value that no longer starts with `EJ[` (the
empty string) was altered.  The last two conjuncts show the alias fires
whenever the TARGET is absent or falsy, with no check on the source's own
value: walking `{"_x": null}` — a document with no truthy underscore
binding at all — still adds `"x": null` and changes the document, so a
no-op class must exclude underscore keys altogether. -/
theorem idempotence_counterexample :
    processObjectFields (.obj [(lc "_x", .str (lc "hello")), (lc "x", .str zeroTok)]) zeroKey =
      .ok (.obj [(lc "_x", .str (lc "hello")), (lc "x", .str [])]) ∧
    processObjectFields (.obj [(lc "_x", .str (lc "hello")), (lc "x", .str [])]) zeroKey =
      .ok (.obj [(lc "_x", .str (lc "hello")), (lc "x", .str (lc "hello"))]) ∧
    JVal.obj [(lc "_x", .str (lc "hello")), (lc "x", .str [])] ≠
      JVal.obj [(lc "_x", .str (lc "hello")), (lc "x", .str (lc "hello"))] ∧
    processObjectFields (.obj [(lc "_x", JVal.null)]) zeroKey =
      .ok (.obj [(lc "_x", JVal.null), (lc "x", JVal.null)]) ∧
    JVal.obj [(lc "_x", JVal.null)] ≠ JVal.obj [(lc "_x", JVal.null), (lc "x", JVal.null)] :=
  ⟨rfl, rfl,
    fun h =>
      absurd (congrArg (fun d => match d with | JVal.obj [_, (_, .str s)] => s | _ => []) h)
        (by decide),
    rfl,
    fun h =>
      absurd (congrArg (fun d => match d with | JVal.obj l => l.length | _ => 0) h)
        (by decide)⟩

/-- C8 (amended): on any document containing no `EJ[`-tagged string and no
underscore-prefixed key, decryption is a no-op — the document comes back
unchanged (in particular such strings are never grammar-checked).  The
model is a pure function, so decrypting the same document twice with the
same key is deterministic by construction; idempotence in outcome can
fail through the underscore-alias rule, which fires whenever the aliased
target is absent or falsy — the source value's own truthiness is never
checked — so the no-op class here excludes underscore keys altogether
(see the counterexample: even `{"_x": null}` is changed by a walk). -/
theorem decrypt_noop_on_clean (v : JVal) (pk : List Char) (hv : cleanVal v = true) :
    processObjectFields v pk = .ok v :=
  cleanVal_noop (jdepth v) v pk hv

/-- Witness: the no-op theorem on a concrete document with nested values
and an `EJ`-free string. -/
theorem decrypt_noop_on_clean_witness :
    processObjectFields
        (.obj [(lc "a", .str (lc "hello")), (lc "b", .arr [.num 3, .null]),
               (lc "c", .obj [(lc "d", .bool true)])]) zeroKey =
      .ok (.obj [(lc "a", .str (lc "hello")), (lc "b", .arr [.num 3, .null]),
                 (lc "c", .obj [(lc "d", .bool true)])]) :=
  decrypt_noop_on_clean _ zeroKey (by decide)

/-! ## Default-alias tracking (C4, C10) -/

/-- Values whose one-key walker step cannot change them: non-`EJ[` strings,
numbers, booleans and `null` (objects and arrays get recursed into). -/
def stableV : JVal → Bool
  | .str s => !isEjTagged s
  | .num _ => true
  | .bool _ => true
  | .null => true
  | .arr _ => false
  | .obj _ => false

theorem jLookup_setField_self : ∀ (l : List (List Char × JVal)) (k : List Char) (v : JVal),
    jLookup (setField l k v) k = some v := by
  intro l k v
  induction l with
  | nil => simp [setField, jLookup]
  | cons kv rest ih =>
    obtain ⟨k', v'⟩ := kv
    by_cases h : k' = k
    · simp [setField, jLookup, h]
    · simp [setField, jLookup, h, ih]

theorem jLookup_setField_ne : ∀ (l : List (List Char × JVal)) (k' k : List Char) (v : JVal),
    k' ≠ k → jLookup (setField l k' v) k = jLookup l k := by
  intro l k' k v hne
  induction l with
  | nil => simp [setField, jLookup, hne]
  | cons kv rest ih =>
    obtain ⟨k0, v0⟩ := kv
    by_cases h : k0 = k'
    · subst h
      simp [setField, jLookup, hne]
    · simp only [setField, if_neg h, jLookup]
      by_cases h2 : k0 = k
      · simp [h2]
      · simp [h2, ih]

theorem underscore_eta {key : List Char} (h : isUnderscoreKey key = true) :
    key = '_' :: key.drop 1 := by
  cases key with
  | nil => cases h
  | cons c rest =>
    unfold isUnderscoreKey at h
    have : c = '_' := eq_of_beq h
    subst this
    rfl

theorem jLookup_none_not_mem : ∀ {l : List (List Char × JVal)} {k : List Char},
    jLookup l k = none → k ∉ l.map Prod.fst := by
  intro l
  induction l with
  | nil => intro k _; simp
  | cons kv rest ih =>
    intro k h
    obtain ⟨k', v'⟩ := kv
    unfold jLookup at h
    by_cases hk : k' = k
    · rw [if_pos hk] at h
      cases h
    · rw [if_neg hk] at h
      simp only [List.map_cons, List.mem_cons]
      rintro (h1 | hm)
      · exact hk h1.symm
      · exact ih h hm

theorem jLookup_some_mem_keys : ∀ {l : List (List Char × JVal)} {k : List Char} {v : JVal},
    jLookup l k = some v → k ∈ l.map Prod.fst := by
  intro l k v h
  have := jLookup_mem h
  exact List.mem_map.mpr ⟨(k, v), this, rfl⟩

/-- One loop iteration keeps the binding of a tracked key `name` intact,
provided the alias into `name` cannot fire (the tracked value is truthy
whenever the visited key is `_name`) and visits of `name` itself cannot
rewrite it (the tracked value is stable whenever the visited key is
`name`). -/
theorem stepField_keeps (sub : JVal → Except JsError JVal) (pk key : List Char)
    (obj obj' : List (List Char × JVal)) (name : List Char) (w : JVal)
    (hstep : stepField sub pk obj key = .ok obj')
    (hw : jLookup obj name = some w)
    (hsubnull : sub .null = .ok .null)
    (halias : key = '_' :: name → jsFalsy w = false)
    (hvisit : key = name → stableV w = true) :
    jLookup obj' name = some w := by
  unfold stepField at hstep
  by_cases hu : isUnderscoreKey key = true
  · rw [if_pos hu] at hstep
    by_cases hff : falsyOpt (jLookup obj (key.drop 1)) = true
    · rw [if_pos hff] at hstep
      cases hlk : jLookup obj key with
      | some v =>
        simp only [hlk] at hstep
        cases hstep
        by_cases ht : key.drop 1 = name
        · exfalso
          have hkey : key = '_' :: name := by rw [underscore_eta hu, ht]
          rw [ht, hw] at hff
          simp only [falsyOpt] at hff
          rw [halias hkey] at hff
          cases hff
        · rw [jLookup_setField_ne _ _ _ _ ht]
          exact hw
      | none =>
        simp only [hlk] at hstep
        cases hstep
        exact hw
    · rw [if_neg hff] at hstep
      cases hstep
      exact hw
  · rw [if_neg hu] at hstep
    cases hlk : jLookup obj key with
    | none =>
      simp only [hlk] at hstep
      cases hstep
      exact hw
    | some v =>
      cases v with
      | str s =>
        by_cases he : isEjTagged s = true
        · by_cases hk : key = name
          · exfalso
            subst hk
            rw [hw] at hlk
            injection hlk with hlk2
            have := hvisit rfl
            rw [hlk2] at this
            simp only [stableV, he] at this
            cases this
          · simp only [hlk, if_pos he, Bind.bind, Except.bind] at hstep
            cases hp : parseEncryptedValue s with
            | error e => rw [hp] at hstep; exact (Except.noConfusion hstep)
            | ok t =>
              rw [hp] at hstep
              dsimp only at hstep
              cases hd : decrypt t.box t.nonce t.encrypterPublic pk with
              | error e => rw [hd] at hstep; exact (Except.noConfusion hstep)
              | ok pt =>
                rw [hd] at hstep
                simp only [Pure.pure, Except.pure] at hstep
                cases hstep
                rw [jLookup_setField_ne _ _ _ _ hk]
                exact hw
        · simp only [hlk, if_neg he] at hstep
          cases hstep
          exact hw
      | num n =>
        simp only [hlk] at hstep
        cases hstep
        exact hw
      | bool b =>
        simp only [hlk] at hstep
        cases hstep
        exact hw
      | null =>
        simp only [hlk, hsubnull, Bind.bind, Except.bind, Pure.pure, Except.pure] at hstep
        cases hstep
        by_cases hk : key = name
        · subst hk
          rw [hw] at hlk
          injection hlk with hlk2
          rw [jLookup_setField_self, ← hlk2]
        · rw [jLookup_setField_ne _ _ _ _ hk]
          exact hw
      | arr es =>
        by_cases hk : key = name
        · exfalso
          subst hk
          rw [hw] at hlk
          injection hlk with hlk2
          have := hvisit rfl
          rw [hlk2] at this
          cases this
        · simp only [hlk, Bind.bind, Except.bind] at hstep
          cases hs : sub (.arr es) with
          | error e => rw [hs] at hstep; cases hstep
          | ok r =>
            rw [hs] at hstep
            simp only [Pure.pure, Except.pure] at hstep
            cases hstep
            rw [jLookup_setField_ne _ _ _ _ hk]
            exact hw
      | obj fs =>
        by_cases hk : key = name
        · exfalso
          subst hk
          rw [hw] at hlk
          injection hlk with hlk2
          have := hvisit rfl
          rw [hlk2] at this
          cases this
        · simp only [hlk, Bind.bind, Except.bind] at hstep
          cases hs : sub (.obj fs) with
          | error e => rw [hs] at hstep; cases hstep
          | ok r =>
            rw [hs] at hstep
            simp only [Pure.pure, Except.pure] at hstep
            cases hstep
            rw [jLookup_setField_ne _ _ _ _ hk]
            exact hw

/-- One loop iteration at a key other than `_name` keeps the binding of
`name` absent-or-falsy when it was absent-or-falsy (falsy values are
inert in every branch of the loop). -/
theorem stepField_falsy (sub : JVal → Except JsError JVal) (pk key : List Char)
    (obj obj' : List (List Char × JVal)) (name : List Char)
    (hstep : stepField sub pk obj key = .ok obj')
    (hsubnull : sub .null = .ok .null)
    (hkey : key ≠ '_' :: name)
    (hf : falsyOpt (jLookup obj name) = true) :
    falsyOpt (jLookup obj' name) = true := by
  unfold stepField at hstep
  by_cases hu : isUnderscoreKey key = true
  · rw [if_pos hu] at hstep
    by_cases hff : falsyOpt (jLookup obj (key.drop 1)) = true
    · rw [if_pos hff] at hstep
      cases hlk : jLookup obj key with
      | some v =>
        simp only [hlk] at hstep
        cases hstep
        by_cases ht : key.drop 1 = name
        · exact absurd (by rw [underscore_eta hu, ht]) hkey
        · rw [jLookup_setField_ne _ _ _ _ ht]
          exact hf
      | none =>
        simp only [hlk] at hstep
        cases hstep
        exact hf
    · rw [if_neg hff] at hstep
      cases hstep
      exact hf
  · rw [if_neg hu] at hstep
    cases hlk : jLookup obj key with
    | none =>
      simp only [hlk] at hstep
      cases hstep
      exact hf
    | some v =>
      cases v with
      | str s =>
        by_cases he : isEjTagged s = true
        · by_cases hk : key = name
          · exfalso
            subst hk
            rw [hlk] at hf
            simp only [falsyOpt, jsFalsy] at hf
            have hsnil : s = [] := by
              cases s
              · rfl
              · cases hf
            rw [hsnil] at he
            cases he
          · simp only [hlk, if_pos he, Bind.bind, Except.bind] at hstep
            cases hp : parseEncryptedValue s with
            | error e => rw [hp] at hstep; exact (Except.noConfusion hstep)
            | ok t =>
              rw [hp] at hstep
              dsimp only at hstep
              cases hd : decrypt t.box t.nonce t.encrypterPublic pk with
              | error e => rw [hd] at hstep; exact (Except.noConfusion hstep)
              | ok pt =>
                rw [hd] at hstep
                simp only [Pure.pure, Except.pure] at hstep
                cases hstep
                rw [jLookup_setField_ne _ _ _ _ hk]
                exact hf
        · simp only [hlk, if_neg he] at hstep
          cases hstep
          exact hf
      | num n =>
        simp only [hlk] at hstep
        cases hstep
        exact hf
      | bool b =>
        simp only [hlk] at hstep
        cases hstep
        exact hf
      | null =>
        simp only [hlk, hsubnull, Bind.bind, Except.bind, Pure.pure, Except.pure] at hstep
        cases hstep
        by_cases hk : key = name
        · subst hk
          rw [jLookup_setField_self]
          rfl
        · rw [jLookup_setField_ne _ _ _ _ hk]
          exact hf
      | arr es =>
        by_cases hk : key = name
        · exfalso
          subst hk
          rw [hlk] at hf
          cases hf
        · simp only [hlk, Bind.bind, Except.bind] at hstep
          cases hs : sub (.arr es) with
          | error e => rw [hs] at hstep; cases hstep
          | ok r =>
            rw [hs] at hstep
            simp only [Pure.pure, Except.pure] at hstep
            cases hstep
            rw [jLookup_setField_ne _ _ _ _ hk]
            exact hf
      | obj fs =>
        by_cases hk : key = name
        · exfalso
          subst hk
          rw [hlk] at hf
          cases hf
        · simp only [hlk, Bind.bind, Except.bind] at hstep
          cases hs : sub (.obj fs) with
          | error e => rw [hs] at hstep; cases hstep
          | ok r =>
            rw [hs] at hstep
            simp only [Pure.pure, Except.pure] at hstep
            cases hstep
            rw [jLookup_setField_ne _ _ _ _ hk]
            exact hf

theorem processVal_null : ∀ (fuel : Nat) (pk : List Char),
    processVal fuel .null pk = .ok .null := by
  intro fuel pk
  cases fuel <;> rfl

/-- Running the whole key loop keeps the binding of a tracked key `name`
intact whenever the alias into `name` cannot fire and a visit of `name`
itself cannot rewrite it. -/
theorem processKeys_keeps (sub : JVal → Except JsError JVal) (pk name : List Char) (w : JVal)
    (hsubnull : sub .null = .ok .null) :
    ∀ (keys : List (List Char)) (obj res : List (List Char × JVal)),
      processKeys sub pk obj keys = .ok res →
      jLookup obj name = some w →
      ('_' :: name ∈ keys → jsFalsy w = false) →
      (name ∈ keys → stableV w = true) →
      jLookup res name = some w := by
  intro keys
  induction keys with
  | nil =>
    intro obj res hpk hw _ _
    simp only [processKeys] at hpk
    cases hpk
    exact hw
  | cons key rest ih =>
    intro obj res hpk hw halias hvisit
    simp only [processKeys, Bind.bind, Except.bind] at hpk
    cases hs : stepField sub pk obj key with
    | error e => rw [hs] at hpk; exact (Except.noConfusion hpk)
    | ok obj' =>
      rw [hs] at hpk
      dsimp only at hpk
      have hw' := stepField_keeps sub pk key obj obj' name w hs hw hsubnull
        (fun h => halias (by rw [h]; exact List.mem_cons_self _ _))
        (fun h => hvisit (by rw [h]; exact List.mem_cons_self _ _))
      exact ih obj' res hpk hw'
        (fun hm => halias (List.mem_cons_of_mem _ hm))
        (fun hm => hvisit (List.mem_cons_of_mem _ hm))

/-- Running the whole key loop keeps the binding of a tracked key `name`
absent-or-falsy when no visited key is its underscore alias. -/
theorem processKeys_falsy (sub : JVal → Except JsError JVal) (pk name : List Char)
    (hsubnull : sub .null = .ok .null) :
    ∀ (keys : List (List Char)) (obj res : List (List Char × JVal)),
      processKeys sub pk obj keys = .ok res →
      falsyOpt (jLookup obj name) = true →
      '_' :: name ∉ keys →
      falsyOpt (jLookup res name) = true := by
  intro keys
  induction keys with
  | nil =>
    intro obj res hpk hf _
    simp only [processKeys] at hpk
    cases hpk
    exact hf
  | cons key rest ih =>
    intro obj res hpk hf hnmem
    simp only [processKeys, Bind.bind, Except.bind] at hpk
    cases hs : stepField sub pk obj key with
    | error e => rw [hs] at hpk; exact (Except.noConfusion hpk)
    | ok obj' =>
      rw [hs] at hpk
      dsimp only at hpk
      have hf' := stepField_falsy sub pk key obj obj' name hs hsubnull
        (fun h => hnmem (by rw [← h]; exact List.mem_cons_self _ _)) hf
      exact ih obj' res hpk hf' (fun hm => hnmem (List.mem_cons_of_mem _ hm))

/-- Running the key loop over a list containing `_name`, on an object where
`_name` is bound to a truthy stable value `w` and `name` is absent or
falsy, installs `w` at `name` and retains it at `_name`. -/
theorem processKeys_alias (sub : JVal → Except JsError JVal) (pk name : List Char) (w : JVal)
    (hsubnull : sub .null = .ok .null)
    (hfw : jsFalsy w = false) (hst : stableV w = true) :
    ∀ (keys : List (List Char)) (obj res : List (List Char × JVal)),
      processKeys sub pk obj keys = .ok res →
      jLookup obj ('_' :: name) = some w →
      falsyOpt (jLookup obj name) = true →
      '_' :: name ∈ keys →
      jLookup res name = some w ∧ jLookup res ('_' :: name) = some w := by
  intro keys
  induction keys with
  | nil =>
    intro obj res _ _ _ hmem
    cases hmem
  | cons key rest ih =>
    intro obj res hpk hw hf hmem
    simp only [processKeys, Bind.bind, Except.bind] at hpk
    cases hs : stepField sub pk obj key with
    | error e => rw [hs] at hpk; exact (Except.noConfusion hpk)
    | ok obj' =>
      rw [hs] at hpk
      dsimp only at hpk
      by_cases hkeq : key = '_' :: name
      · have hself : name ≠ '_' :: name := fun h => List.cons_ne_self '_' name h.symm
        have hstep := hs
        rw [hkeq] at hstep
        unfold stepField at hstep
        rw [if_pos (by rfl)] at hstep
        have hdrop : ('_' :: name).drop 1 = name := rfl
        rw [hdrop, if_pos hf, hw] at hstep
        cases hstep
        have hobj'n : jLookup (setField obj name w) name = some w :=
          jLookup_setField_self obj name w
        have hobj'u : jLookup (setField obj name w) ('_' :: name) = some w := by
          rw [jLookup_setField_ne obj name ('_' :: name) w hself]
          exact hw
        constructor
        · exact processKeys_keeps sub pk name w hsubnull rest _ res hpk hobj'n
            (fun _ => hfw) (fun _ => hst)
        · exact processKeys_keeps sub pk ('_' :: name) w hsubnull rest _ res hpk hobj'u
            (fun _ => hfw) (fun _ => hst)
      · have hmem' : '_' :: name ∈ rest := by
          cases List.mem_cons.mp hmem with
          | inl h => exact absurd h.symm hkeq
          | inr h => exact h
        have hw' := stepField_keeps sub pk key obj obj' ('_' :: name) w hs hw hsubnull
          (fun _ => hfw) (fun _ => hst)
        have hf' := stepField_falsy sub pk key obj obj' name hs hsubnull hkeq hf
        exact ih obj' res hpk hw' hf' hmem'

/-- A successful run of the walker on an object decomposes into a successful
run of the key loop over the object's own key list, with a recursion
continuation that maps null to null. -/
theorem processVal_obj_ok (fuel : Nat) (fields : List (List Char × JVal))
    (pk : List Char) (res : JVal)
    (h : processVal fuel (.obj fields) pk = .ok res) :
    ∃ (sub : JVal → Except JsError JVal) (rf : List (List Char × JVal)),
      sub JVal.null = .ok .null ∧
      processKeys sub pk fields (fields.map Prod.fst) = .ok rf ∧
      res = .obj rf := by
  cases fuel with
  | zero =>
    simp only [processVal, processOneLevel, Functor.map, Except.map] at h
    cases hpk : processKeys (fun w => .ok w) pk fields (fields.map Prod.fst) with
    | error e => rw [hpk] at h; exact (Except.noConfusion h)
    | ok rf =>
      rw [hpk] at h
      dsimp only at h
      injection h with h2
      exact ⟨_, rf, rfl, hpk, h2.symm⟩
  | succ f =>
    simp only [processVal, processOneLevel, Functor.map, Except.map] at h
    cases hpk : processKeys (fun w => processVal f w pk) pk fields (fields.map Prod.fst) with
    | error e => rw [hpk] at h; exact (Except.noConfusion h)
    | ok rf =>
      rw [hpk] at h
      dsimp only at h
      injection h with h2
      exact ⟨_, rf, processVal_null f pk, hpk, h2.symm⟩

/-- C4 (counterexample): the claim says that when `name` is already present
at the same mapping level — even with a falsy value — the aliasing step
leaves it unchanged.  On `{"_x": "v", "x": ""}` the source's truthy check
`!configJson[keyName]` treats the present-but-empty `"x"` like an absent
one, and the result binds `"x"` to `"v"`, a different value than the
original `""`. -/
theorem alias_falsy_counterexample :
    processObjectFields (.obj [(lc "_x", .str (lc "v")), (lc "x", .str [])]) (lc "k")
      = .ok (.obj [(lc "_x", .str (lc "v")), (lc "x", .str (lc "v"))]) ∧
    JVal.str (lc "v") ≠ JVal.str [] := by
  constructor
  · rfl
  · intro h
    injection h with h2
    cases h2

/-- C4 (amended): for every mapping bearing `_name` with a truthy,
non-encrypted scalar value `w`: if `name` is absent from the same mapping
level OR present with a falsy value, the result binds `name` to `w`
unmodified and retains `_name ↦ w`; only if `name` is present with a
truthy value is it left unchanged (stated for truthy non-encrypted scalar
occupants). -/
theorem alias_amended (fields : List (List Char × JVal)) (pk name : List Char)
    (w res : JVal)
    (hproc : processObjectFields (.obj fields) pk = .ok res)
    (hw : jLookup fields ('_' :: name) = some w)
    (hfw : jsFalsy w = false) (hst : stableV w = true) :
    (falsyOpt (jLookup fields name) = true →
      ∃ rf, res = .obj rf ∧ jLookup rf name = some w ∧
        jLookup rf ('_' :: name) = some w) ∧
    (∀ t, jLookup fields name = some t → jsFalsy t = false → stableV t = true →
      ∃ rf, res = .obj rf ∧ jLookup rf name = some t) := by
  unfold processObjectFields at hproc
  obtain ⟨sub, rf, hnull, hpk, rfl⟩ := processVal_obj_ok _ fields pk res hproc
  constructor
  · intro hfals
    have hmem : '_' :: name ∈ fields.map Prod.fst := jLookup_some_mem_keys hw
    obtain ⟨h1, h2⟩ := processKeys_alias sub pk name w hnull hfw hst
      (fields.map Prod.fst) fields rf hpk hw hfals hmem
    exact ⟨rf, rfl, h1, h2⟩
  · intro t ht hft hstt
    exact ⟨rf, rfl, processKeys_keeps sub pk name t hnull (fields.map Prod.fst)
      fields rf hpk ht (fun _ => hft) (fun _ => hstt)⟩

/-- C4 (witness): the amended theorem applied to `{"_x": "v"}` with key
`"x"` absent yields `{"_x": "v", "x": "v"}`. -/
theorem alias_amended_witness :
    ∃ rf, (JVal.obj [(lc "_x", .str (lc "v")), (lc "x", .str (lc "v"))]) = JVal.obj rf ∧
      jLookup rf (lc "x") = some (.str (lc "v")) ∧
      jLookup rf ('_' :: lc "x") = some (.str (lc "v")) :=
  (alias_amended [(lc "_x", .str (lc "v"))] (lc "k") (lc "x") (.str (lc "v"))
    (.obj [(lc "_x", .str (lc "v")), (lc "x", .str (lc "v"))])
    (by rfl) (by rfl) (by rfl) (by rfl)).1 (by rfl)

/-- C10: for every document whose root mapping binds `_public_key` to the
(nonempty, non-token) public-key text and whose `public_key` is absent or
falsy, a successful `processEjson` returns a root mapping that binds
`public_key` to that text and retains `_public_key` unchanged. -/
theorem processEjson_publicKey_alias
    (getPrivateKey : Option JVal → Except JsError (List Char))
    (fields : List (List Char × JVal)) (res : JVal) (pkTxt : List Char)
    (hrun : processEjson getPrivateKey (.obj fields) = .ok res)
    (hw : jLookup fields (lc "_public_key") = some (.str pkTxt))
    (hne : pkTxt ≠ [])
    (hej : isEjTagged pkTxt = false)
    (hfals : falsyOpt (jLookup fields (lc "public_key")) = true) :
    ∃ rf, res = .obj rf ∧
      jLookup rf (lc "public_key") = some (.str pkTxt) ∧
      jLookup rf (lc "_public_key") = some (.str pkTxt) := by
  have hcons : lc "_public_key" = '_' :: lc "public_key" := rfl
  unfold processEjson at hrun
  simp only [Bind.bind, Except.bind] at hrun
  cases hg : getPrivateKey (rootLookup (.obj fields) (lc "_public_key")) with
  | error e => rw [hg] at hrun; exact (Except.noConfusion hrun)
  | ok pk =>
    rw [hg] at hrun
    dsimp only at hrun
    unfold processObjectFields at hrun
    obtain ⟨sub, rf, hnull, hpk, rfl⟩ := processVal_obj_ok _ fields pk res hrun
    rw [hcons] at hw
    have hfw : jsFalsy (JVal.str pkTxt) = false := by
      cases pkTxt with
      | nil => exact absurd rfl hne
      | cons c cs => rfl
    have hst : stableV (JVal.str pkTxt) = true := by
      simp [stableV, hej]
    have hmem : '_' :: lc "public_key" ∈ fields.map Prod.fst := jLookup_some_mem_keys hw
    obtain ⟨h1, h2⟩ := processKeys_alias sub pk (lc "public_key") (.str pkTxt) hnull hfw hst
      (fields.map Prod.fst) fields rf hpk hw hfals hmem
    exact ⟨rf, rfl, h1, by rw [hcons]; exact h2⟩

/-- C10 (witness): on `{"_public_key": "PK"}`, with a resolver that returns
a private key, `processEjson` yields `{"_public_key": "PK", "public_key":
"PK"}`. -/
theorem processEjson_publicKey_alias_witness :
    ∃ rf, (JVal.obj [(lc "_public_key", .str (lc "PK")),
        (lc "public_key", .str (lc "PK"))]) = JVal.obj rf ∧
      jLookup rf (lc "public_key") = some (.str (lc "PK")) ∧
      jLookup rf (lc "_public_key") = some (.str (lc "PK")) :=
  processEjson_publicKey_alias (fun _ => .ok (lc "k"))
    [(lc "_public_key", .str (lc "PK"))]
    (.obj [(lc "_public_key", .str (lc "PK")), (lc "public_key", .str (lc "PK"))])
    (lc "PK") (by rfl) (by rfl) (by decide) (by rfl) (by rfl)

theorem store_set_get_ne : ∀ (s : Store) (a i : Nat) (x : HObj), i ≠ a →
    (s.set a x)[i]? = s[i]? := by
  intro s
  induction s with
  | nil => intro a i x _; simp [List.set]
  | cons hd tl ih =>
    intro a i x h
    cases a with
    | zero =>
      cases i with
      | zero => exact absurd rfl h
      | succ j => simp [List.set]
    | succ a' =>
      cases i with
      | zero => simp [List.set]
      | succ j =>
        simp only [List.set, List.getElem?_cons_succ]
        exact ih a' j x (fun hh => h (by rw [hh]))

theorem store_get_append : ∀ (s t : Store) (i : Nat), i < s.length →
    (s ++ t)[i]? = s[i]? := by
  intro s
  induction s with
  | nil => intro t i h; exact absurd h (Nat.not_lt_zero i)
  | cons hd tl ih =>
    intro t i h
    cases i with
    | zero => simp
    | succ j =>
      simp only [List.cons_append, List.getElem?_cons_succ]
      exact ih t j (Nat.lt_of_succ_lt_succ h)

/-- Cloning only appends to the store (for any value cloner that does). -/
theorem cloneFieldsWith_prefix (sub : Store → HVal → Store × HVal)
    (hsub : ∀ (s : Store) (v : HVal), ∃ ext, (sub s v).1 = s ++ ext) :
    ∀ (l : HObj) (s : Store), ∃ ext, (cloneFieldsWith sub s l).1 = s ++ ext := by
  intro l
  induction l with
  | nil => intro s; exact ⟨[], by simp [cloneFieldsWith]⟩
  | cons kv rest ih =>
    intro s
    obtain ⟨k, v⟩ := kv
    cases hp : sub s v with
    | mk s1 v1 =>
      obtain ⟨e1, h1⟩ := hsub s v
      rw [hp] at h1
      dsimp only at h1
      cases hq : cloneFieldsWith sub s1 rest with
      | mk s2 r' =>
        obtain ⟨e2, h2⟩ := ih s1
        rw [hq] at h2
        dsimp only at h2
        refine ⟨e1 ++ e2, ?_⟩
        simp only [cloneFieldsWith, hp, hq]
        rw [h2, h1, List.append_assoc]

/-- `structuredClone` only appends fresh slots to the store. -/
theorem cloneH_prefix : ∀ (f : Nat) (s : Store) (v : HVal),
    ∃ ext, (cloneH f s v).1 = s ++ ext := by
  intro f
  induction f with
  | zero =>
    intro s v
    cases v <;> exact ⟨[], by simp [cloneH]⟩
  | succ f ih =>
    intro s v
    cases v with
    | href a =>
      cases hr : cloneFieldsWith (fun s' v => cloneH f s' v) s (s.getD a []) with
      | mk c1 c2 =>
        obtain ⟨e, he⟩ := cloneFieldsWith_prefix _ (fun s' v' => ih s' v') (s.getD a []) s
        rw [hr] at he
        dsimp only at he
        refine ⟨e ++ [c2], ?_⟩
        simp only [cloneH, hr]
        rw [he, List.append_assoc]
    | hstr t => exact ⟨[], by simp [cloneH]⟩
    | hnum n => exact ⟨[], by simp [cloneH]⟩
    | hbool b => exact ⟨[], by simp [cloneH]⟩
    | hnull => exact ⟨[], by simp [cloneH]⟩

/-- The key loop only writes the walked slot `a` and slots created by the
recursive continuation: every store index below `N ≤ a` keeps its object,
and the store never shrinks. -/
theorem walkWith_preserves (sub : Store → HVal → Except JsError (Store × HVal))
    (pk : List Char) (N : Nat)
    (hsub : ∀ (s : Store) (v : HVal) (s' : Store) (v' : HVal), sub s v = .ok (s', v') →
      (∀ i, i < s.length → s'[i]? = s[i]?) ∧ s.length ≤ s'.length) :
    ∀ (keys : List (List Char)) (s : Store) (a : Nat) (s' : Store),
      N ≤ a → N ≤ s.length → walkWith sub pk s a keys = .ok s' →
      (∀ i, i < N → s'[i]? = s[i]?) ∧ s.length ≤ s'.length := by
  intro keys
  induction keys with
  | nil =>
    intro s a s' _ _ hw
    simp only [walkWith] at hw
    cases hw
    exact ⟨fun i _ => rfl, Nat.le_refl _⟩
  | cons key rest ih =>
    intro s a s' ha hN hw
    simp only [walkWith] at hw
    by_cases hu : isUnderscoreKey key = true
    · rw [if_pos hu] at hw
      by_cases hf : hFalsyOpt (hLookup (s.getD a []) (key.drop 1)) = true
      · rw [if_pos hf] at hw
        cases hlk : hLookup (s.getD a []) key with
        | some v =>
          simp only [hlk] at hw
          obtain ⟨hpres, hlen⟩ := ih _ a s' ha (by rw [List.length_set]; exact hN) hw
          refine ⟨?_, ?_⟩
          · intro i hi
            rw [hpres i hi,
              store_set_get_ne s a i _ (Nat.ne_of_lt (Nat.lt_of_lt_of_le hi ha))]
          · rw [List.length_set] at hlen; exact hlen
        | none => simp only [hlk] at hw; exact ih s a s' ha hN hw
      · rw [if_neg hf] at hw; exact ih s a s' ha hN hw
    · rw [if_neg hu] at hw
      cases hlk : hLookup (s.getD a []) key with
      | none => simp only [hlk] at hw; exact ih s a s' ha hN hw
      | some v =>
        cases v with
        | hstr str =>
          by_cases he : isEjTagged str = true
          · simp only [hlk, if_pos he, Bind.bind, Except.bind] at hw
            cases hp : parseEncryptedValue str with
            | error e => rw [hp] at hw; exact (Except.noConfusion hw)
            | ok tok =>
              rw [hp] at hw
              dsimp only at hw
              cases hd : decrypt tok.box tok.nonce tok.encrypterPublic pk with
              | error e => rw [hd] at hw; exact (Except.noConfusion hw)
              | ok pt =>
                rw [hd] at hw
                dsimp only at hw
                obtain ⟨hpres, hlen⟩ := ih _ a s' ha (by rw [List.length_set]; exact hN) hw
                refine ⟨?_, ?_⟩
                · intro i hi
                  rw [hpres i hi,
                    store_set_get_ne s a i _ (Nat.ne_of_lt (Nat.lt_of_lt_of_le hi ha))]
                · rw [List.length_set] at hlen; exact hlen
          · simp only [hlk, if_neg he] at hw; exact ih s a s' ha hN hw
        | hnum n => simp only [hlk] at hw; exact ih s a s' ha hN hw
        | hbool b => simp only [hlk] at hw; exact ih s a s' ha hN hw
        | hnull =>
          simp only [hlk, Bind.bind, Except.bind] at hw
          cases hsv : sub s .hnull with
          | error e => rw [hsv] at hw; exact (Except.noConfusion hw)
          | ok r =>
            obtain ⟨r1, r2⟩ := r
            rw [hsv] at hw
            dsimp only at hw
            obtain ⟨hp1, hl1⟩ := hsub s .hnull r1 r2 hsv
            obtain ⟨hpres, hlen⟩ := ih _ a s' ha
              (by rw [List.length_set]; exact Nat.le_trans hN hl1) hw
            refine ⟨?_, ?_⟩
            · intro i hi
              rw [hpres i hi,
                store_set_get_ne r1 a i _ (Nat.ne_of_lt (Nat.lt_of_lt_of_le hi ha)),
                hp1 i (Nat.lt_of_lt_of_le hi hN)]
            · rw [List.length_set] at hlen; exact Nat.le_trans hl1 hlen
        | href b =>
          simp only [hlk, Bind.bind, Except.bind] at hw
          cases hsv : sub s (.href b) with
          | error e => rw [hsv] at hw; exact (Except.noConfusion hw)
          | ok r =>
            obtain ⟨r1, r2⟩ := r
            rw [hsv] at hw
            dsimp only at hw
            obtain ⟨hp1, hl1⟩ := hsub s (.href b) r1 r2 hsv
            obtain ⟨hpres, hlen⟩ := ih _ a s' ha
              (by rw [List.length_set]; exact Nat.le_trans hN hl1) hw
            refine ⟨?_, ?_⟩
            · intro i hi
              rw [hpres i hi,
                store_set_get_ne r1 a i _ (Nat.ne_of_lt (Nat.lt_of_lt_of_le hi ha)),
                hp1 i (Nat.lt_of_lt_of_le hi hN)]
            · rw [List.length_set] at hlen; exact Nat.le_trans hl1 hlen

/-- One level of the heap-model walker preserves every pre-existing store
slot, never shrinks the store, and — on a reference argument — returns a
reference to a freshly appended clone, not the argument's slot. -/
theorem processHLevel_preserves (sub : Store → HVal → Except JsError (Store × HVal))
    (hsub : ∀ (s : Store) (v : HVal) (s' : Store) (v' : HVal), sub s v = .ok (s', v') →
      (∀ i, i < s.length → s'[i]? = s[i]?) ∧ s.length ≤ s'.length)
    (cf : Nat) (s : Store) (v : HVal) (pk : List Char) (s' : Store) (v' : HVal)
    (h : processHLevel sub (cf + 1) s v pk = .ok (s', v')) :
    (∀ i, i < s.length → s'[i]? = s[i]?) ∧ s.length ≤ s'.length ∧
      (∀ a, v = .href a → ∃ b, v' = .href b ∧ s.length ≤ b) := by
  cases v with
  | hstr t =>
    have hc : cloneH (cf + 1) s (.hstr t) = (s, .hstr t) := rfl
    simp only [processHLevel, hc] at h
    cases h
    exact ⟨fun i _ => rfl, Nat.le_refl _, fun a ha => HVal.noConfusion ha⟩
  | hnum n =>
    have hc : cloneH (cf + 1) s (.hnum n) = (s, .hnum n) := rfl
    simp only [processHLevel, hc] at h
    cases h
    exact ⟨fun i _ => rfl, Nat.le_refl _, fun a ha => HVal.noConfusion ha⟩
  | hbool b =>
    have hc : cloneH (cf + 1) s (.hbool b) = (s, .hbool b) := rfl
    simp only [processHLevel, hc] at h
    cases h
    exact ⟨fun i _ => rfl, Nat.le_refl _, fun a ha => HVal.noConfusion ha⟩
  | hnull =>
    have hc : cloneH (cf + 1) s .hnull = (s, .hnull) := rfl
    simp only [processHLevel, hc] at h
    cases h
    exact ⟨fun i _ => rfl, Nat.le_refl _, fun a ha => HVal.noConfusion ha⟩
  | href a0 =>
    cases hr : cloneFieldsWith (fun s' v => cloneH cf s' v) s (s.getD a0 []) with
    | mk c1 c2 =>
      obtain ⟨ext, hext⟩ := cloneFieldsWith_prefix _ (fun s'' v'' => cloneH_prefix cf s'' v'')
        (s.getD a0 []) s
      rw [hr] at hext
      dsimp only at hext
      have hc : cloneH (cf + 1) s (.href a0) = (c1 ++ [c2], .href c1.length) := by
        simp only [cloneH, hr]
      simp only [processHLevel, hc, Bind.bind, Except.bind] at h
      have hsl : s.length ≤ c1.length := by
        rw [hext, List.length_append]
        exact Nat.le_add_right _ _
      cases hwk : walkWith sub pk (c1 ++ [c2]) c1.length
          (((c1 ++ [c2]).getD c1.length []).map Prod.fst) with
      | error e => rw [hwk] at h; exact (Except.noConfusion h)
      | ok s2 =>
        rw [hwk] at h
        simp only [Pure.pure, Except.pure] at h
        cases h
        obtain ⟨hpres, hlen⟩ := walkWith_preserves sub pk s.length hsub _
          (c1 ++ [c2]) c1.length _ hsl
          (by rw [List.length_append]; exact Nat.le_trans hsl (Nat.le_add_right _ _)) hwk
        refine ⟨?_, ?_, ?_⟩
        · intro i hi
          rw [hpres i hi, hext, List.append_assoc,
            store_get_append s (ext ++ [c2]) i hi]
        · exact Nat.le_trans (by rw [List.length_append]; exact Nat.le_trans hsl (Nat.le_add_right _ _)) hlen
        · intro a ha
          exact ⟨c1.length, rfl, hsl⟩

/-- C9 (counterexample): on a heap holding one object `{"k": <token>}` at
address 0, the walker returns a reference to a NEW address 1 holding the
decrypted copy, while address 0 still holds the original with its
encrypted string intact — the input tree and the returned tree are not
the same object, contradicting the in-place-mutation claim. -/
theorem inplace_claim_counterexample :
    processH 5 [[(lc "k", HVal.hstr zeroTok)]] (HVal.href 0) zeroKey
      = .ok ([[(lc "k", HVal.hstr zeroTok)], [(lc "k", HVal.hstr [])]], HVal.href 1) ∧
    HVal.href 1 ≠ HVal.href 0 := by
  exact ⟨rfl, by decide⟩

/-- C9 (amended): the walker does not mutate the document passed in: it
`structuredClone`s it and mutates the clone, so after a successful run
every pre-existing store slot is unchanged, the store has only grown, and
an object argument comes back as a reference to a freshly appended slot
(address at or beyond the old store end), not to the argument's own
slot. -/
theorem processH_not_inplace : ∀ (fuel : Nat) (s : Store) (v : HVal) (pk : List Char)
    (s' : Store) (v' : HVal),
    processH fuel s v pk = .ok (s', v') →
    (∀ i, i < s.length → s'[i]? = s[i]?) ∧ s.length ≤ s'.length ∧
      (∀ a, v = .href a → ∃ b, v' = .href b ∧ s.length ≤ b) := by
  intro fuel
  induction fuel with
  | zero =>
    intro s v pk s' v' h
    exact processHLevel_preserves _ (fun s'' w t w' hh => Except.noConfusion hh)
      0 s v pk s' v' h
  | succ f ih =>
    intro s v pk s' v' h
    refine processHLevel_preserves _ ?_ (f + 1) s v pk s' v' h
    intro s'' w t w' hh
    obtain ⟨h1, h2, _⟩ := ih s'' w pk t w' hh
    exact ⟨h1, h2⟩

/-- C9 (witness): the amended theorem applied to the one-object heap of the
counterexample: slot 0 survives unchanged, the store grew, and the result
is a reference at or beyond the old end. -/
theorem processH_not_inplace_witness :
    (∀ i, i < ([[(lc "k", HVal.hstr zeroTok)]] : Store).length →
      ([[(lc "k", HVal.hstr zeroTok)], [(lc "k", HVal.hstr [])]] : Store)[i]? =
        ([[(lc "k", HVal.hstr zeroTok)]] : Store)[i]?) ∧
    ([[(lc "k", HVal.hstr zeroTok)]] : Store).length ≤
      ([[(lc "k", HVal.hstr zeroTok)], [(lc "k", HVal.hstr [])]] : Store).length ∧
    (∀ a, HVal.href 0 = HVal.href a → ∃ b, HVal.href 1 = HVal.href b ∧
      ([[(lc "k", HVal.hstr zeroTok)]] : Store).length ≤ b) :=
  processH_not_inplace 5 [[(lc "k", HVal.hstr zeroTok)]] (HVal.href 0) zeroKey
    [[(lc "k", HVal.hstr zeroTok)], [(lc "k", HVal.hstr [])]] (HVal.href 1) (by rfl)

end Ejson
